import Mathlib

/-!
Verification of the message-nodes conversation-tree engine.

The engine maintains a forest of branching conversation nodes in a table
(a JavaScript object mapping id strings to node records, iterated in
insertion order).  We embed the table as an association list
`List (String × Node)` where updating an existing key keeps its position
and inserting a new key appends, exactly as JavaScript objects behave for
non-numeric string keys.  JavaScript truthiness of optional string fields
(`undefined` and `""` are falsy) is modelled explicitly.  Loops in the
source that are guarded by a visited set are embedded with an explicit
fuel parameter (`none` = fuel exhausted); theorems establish that a
table-size-derived fuel always suffices, which is the termination claim
for those loops.  `getRoot`, which the source leaves unguarded, is also
embedded with fuel, and we show its loop genuinely never finishes on a
parent cycle of existing nodes.
-/

namespace MessageNodes

/-- A message node, translated from the `MessageNode` interface: id, role,
content, cached root id, optional parent id, optional active-child id and
optional metadata.  The engine never inspects `content`/`metadata` beyond
equality, so the generic payloads are embedded as `String`. -/
structure Node where
  id : String
  role : String
  content : String
  root : String
  parent : Option String := none
  child : Option String := none
  metadata : Option String := none
deriving DecidableEq, Repr

/-- The node table: an insertion-ordered mapping from id to node. -/
abbrev Table := List (String × Node)

/-- The keys of a table, in iteration order. -/
def keysOf (t : Table) : List String := t.map (·.1)

/-- `Object.values`: the nodes of the table in iteration order. -/
def tvalues (t : Table) : List Node := t.map (·.2)

/-- `mappings[k]`: lookup by key. -/
def lookup (t : Table) (k : String) : Option Node :=
  match t.find? (fun e => e.1 == k) with
  | some e => some e.2
  | none => none

/-- `draft[k] = v`: replace in place if the key exists, else append. -/
def setEntry (t : Table) (k : String) (v : Node) : Table :=
  if (lookup t k).isSome then
    t.map (fun e => if e.1 == k then (e.1, v) else e)
  else t ++ [(k, v)]

/-- `delete draft[k]`. -/
def eraseEntry (t : Table) (k : String) : Table :=
  t.filter (fun e => !(e.1 == k))

/-- JavaScript truthiness of an optional string: `undefined` and `""` are falsy. -/
def truthy : Option String → Bool
  | none => false
  | some s => !(s == "")

/-- `hasNode`. -/
def hasNode (t : Table) (id : String) : Bool :=
  (lookup t id).isSome

/-- `getNode`. -/
def getNode (t : Table) (id : String) : Option Node :=
  lookup t id

/-- The unguarded `while (current.parent && mappings[current.parent])` loop
of `getRoot`, with fuel; `none` means the fuel ran out. -/
def getRootLoopF (t : Table) : Nat → Node → Option Node
  | 0, _ => none
  | fuel+1, cur =>
    match cur.parent with
    | some p =>
      if p == "" then some cur
      else
        match lookup t p with
        | some pn => getRootLoopF t fuel pn
        | none => some cur
    | none => some cur

/-- `getRoot` with fuel.  `some none` = the source returns `undefined`
(missing id); `some (some n)` = the source returns `n`; `none` = the
source loop has not finished within `fuel` iterations. -/
def getRootF (t : Table) (fuel : Nat) (id : String) : Option (Option Node) :=
  match lookup t id with
  | none => some none
  | some n => (getRootLoopF t fuel n).map some

/-- `getRoot`, run with fuel `t.length + 1`, which suffices whenever the
source loop terminates at all (an acyclic parent chain of existing nodes
visits each node at most once). -/
def getRoot (t : Table) (id : String) : Option Node :=
  (getRootF t (t.length + 1) id).getD none

/-- `getRoots`: all nodes with `root === id`. -/
def getRoots (t : Table) : List Node :=
  (tvalues t).filter (fun n => n.root == n.id)

/-- `getChildren`: all nodes whose `parent === id`, in table order. -/
def getChildren (t : Table) (id : String) : List Node :=
  (tvalues t).filter (fun msg => msg.parent == some id)

/-- The `while (currentId)` loop of `getConversation`, with fuel. -/
def getConvLoopF (t : Table) : Nat → List String → Option String → Option (List Node)
  | 0, _, _ => none
  | _+1, _, none => some []
  | fuel+1, seen, some c =>
    if c == "" then some []
    else
      match lookup t c with
      | none => some []
      | some cur =>
        if cur.id ∈ seen then some []
        else (getConvLoopF t fuel (cur.id :: seen) cur.child).map (cur :: ·)

/-- `getConversation` with fuel; the root node itself is the first element
and is pre-inserted into the visited set. -/
def getConversationF (t : Table) (fuel : Nat) (root : String) : Option (List Node) :=
  match lookup t root with
  | none => some []
  | some rn => (getConvLoopF t fuel [rn.id] rn.child).map (rn :: ·)

/-- `getConversation`, run with always-sufficient fuel `t.length + 1`. -/
def getConversation (t : Table) (root : String) : List Node :=
  (getConversationF t (t.length + 1) root).getD []

/-- The `while (current)` loop of `getAncestry`, with fuel. -/
def getAncLoopF (t : Table) : Nat → List String → Option Node → Option (List Node)
  | 0, _, _ => none
  | _+1, _, none => some []
  | fuel+1, seen, some cur =>
    if cur.id ∈ seen then some []
    else
      (getAncLoopF t fuel (cur.id :: seen)
        (match cur.parent with
         | some p => if p == "" then none else lookup t p
         | none => none)).map (cur :: ·)

/-- `getAncestry` with fuel. -/
def getAncestryF (t : Table) (fuel : Nat) (id : String) : Option (List Node) :=
  match lookup t id with
  | none => some []
  | some s => getAncLoopF t fuel [] (some s)

/-- `getAncestry`, run with always-sufficient fuel `t.length + 1`. -/
def getAncestry (t : Table) (id : String) : List Node :=
  (getAncestryF t (t.length + 1) id).getD []

/-- The `childrenByParent` index of `getRootMapping`: ids of nodes whose
truthy `parent` equals `p` and exists in the table, in table order. -/
def childIndex (t : Table) (p : String) : List String :=
  ((tvalues t).filter (fun n =>
    match n.parent with
    | some q => !(q == "") && q == p && (lookup t q).isSome
    | none => false)).map (·.id)

/-- The stack walk of `getRootMapping`, with fuel.  The head of `stack` is
the top (JavaScript pushes and pops at the array end, so children are
pushed reversed). -/
def grmLoopF (t : Table) : Nat → Table → List String → List String → Option Table
  | 0, _, _, _ => none
  | _+1, out, _, [] => some out
  | fuel+1, out, seen, x :: stack =>
    if x ∈ seen then grmLoopF t fuel out seen stack
    else
      match lookup t x with
      | none => grmLoopF t fuel out (x :: seen) stack
      | some node =>
          grmLoopF t fuel (setEntry out x node) (x :: seen)
            ((childIndex t x).reverse ++ stack)

/-- `getRootMapping` with fuel. -/
def getRootMappingF (t : Table) (fuel : Nat) (root : String) : Option Table :=
  match lookup t root with
  | none => some []
  | some _ => grmLoopF t fuel [] [] [root]

/-- Fuel bound sufficient for every stack walk over a table. -/
def stackBound (t : Table) : Nat := (t.length + 2) * (t.length + 2)

/-- `getRootMapping`, run with always-sufficient fuel. -/
def getRootMapping (t : Table) (root : String) : Table :=
  (getRootMappingF t (stackBound t) root).getD []

/-- `setChild`: set `parent.child`, validating that a given child exists
and claims this parent; no-op (same table) on missing parent, invalid
link, or unchanged value. -/
def setChild (t : Table) (parent : String) (child : Option String) : Table :=
  match lookup t parent with
  | none => t
  | some p0 =>
    let valid := match child with
      | none => true
      | some c =>
        match lookup t c with
        | none => false
        | some c0 => c0.parent == some parent
    if !valid then t
    else if p0.child == child then t
    else setEntry t parent { p0 with child := child }

/-- `nextChild`: move the active child to the next sibling in table order. -/
def nextChild (t : Table) (parent : String) : Table :=
  match lookup t parent with
  | none => t
  | some parentNode =>
    let children := getChildren t parent
    match children.findIdx? (fun c => parentNode.child == some c.id) with
    | none => t
    | some idx =>
      if idx + 1 ≥ children.length then t
      else
        match children.get? (idx + 1) with
        | some c => setChild t parent (some c.id)
        | none => t

/-- `lastChild`: move the active child to the previous sibling in table order. -/
def lastChild (t : Table) (parent : String) : Table :=
  match lookup t parent with
  | none => t
  | some parentNode =>
    let children := getChildren t parent
    match children.findIdx? (fun c => parentNode.child == some c.id) with
    | none => t
    | some idx =>
      if idx = 0 then t
      else
        match children.get? (idx - 1) with
        | some c => setChild t parent (some c.id)
        | none => t

/-- The parent-detach step shared by `_deleteNodeInternal` and
`unlinkNode` (and, under `makeRoot`, its parent branch): when the
captured node's `parent` is truthy, present, and its active child is
this id, clear that active-child pointer. -/
def detachParent (draft : Table) (id : String) (node : Node) : Table :=
  match node.parent with
  | some p =>
    if p == "" then draft
    else
      match lookup draft p with
      | some pn =>
        if pn.child == some id then setEntry draft p { pn with child := none } else draft
      | none => draft
  | none => draft

/-- The active-child-detach step shared by `_deleteNodeInternal` and
`unlinkNode`: when the captured node's `child` is truthy, present, and
its parent is this id, clear that parent pointer. -/
def detachActiveChild (draft : Table) (id : String) (node : Node) : Table :=
  match node.child with
  | some ac =>
    if ac == "" then draft
    else
      match lookup draft ac with
      | some an =>
        if an.parent == some id then setEntry draft ac { an with parent := none } else draft
      | none => draft
  | none => draft

mutual

/-- `_deleteNodeInternal`, with fuel: recursively delete `id` and its
children (nodes whose `parent === id` in the current draft), then detach
the dangling references of the captured parent and active child, then
remove the entry.  Returns the updated draft and visited set, or `none`
on fuel exhaustion. -/
def delF (fuel : Nat) (draft : Table) (seen : List String) (id : String) :
    Option (Table × List String) :=
  match fuel with
  | 0 => none
  | fuel'+1 =>
    match lookup draft id with
    | none => some (draft, seen)
    | some node =>
      if id ∈ seen then some (draft, seen)
      else
        match delsF fuel' draft (id :: seen) ((getChildren draft id).map (·.id)) with
        | none => none
        | some (d1, s1) =>
          some (eraseEntry (detachActiveChild (detachParent d1 id node) id node) id, s1)
termination_by (fuel, 0)

/-- The `for (const childId of childIds)` loop of `_deleteNodeInternal`. -/
def delsF (fuel : Nat) (draft : Table) (seen : List String) (cs : List String) :
    Option (Table × List String) :=
  match cs with
  | [] => some (draft, seen)
  | c :: cs' =>
    match delF fuel draft seen c with
    | none => none
    | some (d1, s1) => delsF fuel d1 s1 cs'
termination_by (fuel, cs.length + 1)

end

/-- The first step of `deleteNode`: when the node's truthy parent exists
and points at `id` as its active child, redirect that pointer to the
first other node in table order whose parent is the same (or clear it
when no such sibling exists). -/
def siblingRedirect (t : Table) (id : String) (node : Node) : Table :=
  match node.parent with
  | some p =>
    if p == "" then t
    else
      match lookup t p with
      | some pn =>
        if pn.child == some id then
          setEntry t p
            { pn with child :=
                ((tvalues t).find? (fun n => n.parent == some p && !(n.id == id))).map (·.id) }
        else t
      | none => t
  | none => t

/-- `deleteNode`: no-op on a missing id; otherwise first redirect the
parent's active-child pointer to the first other sibling in table order
(or clear it), then run the recursive subtree deletion.  Fuel
`t.length + 2` always suffices (each recursive call marks a fresh id). -/
def deleteNode (t : Table) (id : String) : Table :=
  match lookup t id with
  | none => t
  | some node =>
    match delF (t.length + 2) (siblingRedirect t id node) [] id with
    | some (d, _) => d
    | none => t

/-- `unlinkNode`: detach a node from parent and active child and make it
an isolated self-root; no-op when the id is missing or the node is
already isolated. -/
def unlinkNode (t : Table) (id : String) : Table :=
  match lookup t id with
  | none => t
  | some node0 =>
    if node0.parent == none && node0.child == none && node0.root == id then t
    else
      setEntry (detachActiveChild (detachParent t id node0) id node0) id
        { node0 with parent := none, child := none, root := id }

/-- `addNode`: reject on duplicate id or on a truthy parent/child id that
is missing; recompute the stored root (ignoring the caller's `rootArg`);
create the node, link the parent's active child to it, and re-parent a
supplied child onto it. -/
def addNode (t : Table) (id role content : String) (rootArg parentArg childArg : Option String)
    (metadata : Option String) : Table :=
  if hasNode t id then t
  else
    let pOk := match parentArg with
      | some p => if p == "" then true else (lookup t p).isSome
      | none => true
    if !pOk then t
    else
      let cOk := match childArg with
        | some c => if c == "" then true else (lookup t c).isSome
        | none => true
      if !cOk then t
      else
        let root := match parentArg with
          | some p =>
            if p == "" then id
            else
              match getRoot t p with
              | some rn => rn.id
              | none => p
          | none => id
        if !(root == "") && !(hasNode t root) && !(root == id) then t
        else
          let d0 := setEntry t id
            { id := id, role := role, content := content, root := root,
              parent := parentArg, child := childArg, metadata := metadata }
          let d1 := match parentArg with
            | some p =>
              if p == "" then d0
              else
                match lookup d0 p with
                | some pn => setEntry d0 p { pn with child := some id }
                | none => d0
            | none => d0
          match childArg with
          | some c =>
            if c == "" then d1
            else
              match lookup d1 c with
              | some cn => setEntry d1 c { cn with parent := some id }
              | none => d1
          | none => d1

/-- `branchNode`: create a sibling of `id` via `addNode`, copying the
source node's role, root hint and parent; reject when `id` is missing,
`sibling` exists, or the declared parent id is truthy but absent. -/
def branchNode (t : Table) (id sibling content : String) (metadata : Option String) : Table :=
  match lookup t id with
  | none => t
  | some node0 =>
    if hasNode t sibling then t
    else
      let pMissing := match node0.parent with
        | some p => !(p == "") && !(lookup t p).isSome
        | none => false
      if pMissing then t
      else addNode t sibling node0.role content node0.root node0.parent none metadata

/-- The content argument of `updateContent`: a literal replacement or an
updater function of the previous content. -/
inductive ContentArg where
  | lit (c : String)
  | upd (f : String → String)

/-- The metadata argument of `updateContent` when provided: a literal or
an updater function of the previous (possibly absent) metadata. -/
inductive MetaArg where
  | lit (m : String)
  | upd (f : Option String → String)

/-- The resulting content of an `updateContent` call: the literal, or the
updater applied to the previous content. -/
def newContentOf (node0 : Node) : ContentArg → String
  | .lit c => c
  | .upd f => f node0.content

/-- The resulting metadata of an `updateContent` call (`none` when the
metadata argument was not provided). -/
def newMetadataOf (node0 : Node) : Option MetaArg → Option String
  | some (.lit m) => some m
  | some (.upd f) => some (f node0.metadata)
  | none => none

/-- `updateContent`: replace a node's content and/or metadata; no-op
(same table) when the id is missing or when both the resulting content
and the resulting metadata equal the previous values. -/
def updateContent (t : Table) (id : String) (content : ContentArg)
    (metadata : Option MetaArg) : Table :=
  match lookup t id with
  | none => t
  | some node0 =>
    let newContent := newContentOf node0 content
    let newMetadata := newMetadataOf node0 metadata
    let contentUnchanged := node0.content == newContent
    let metadataUnchanged := !metadata.isSome || (node0.metadata == newMetadata)
    if contentUnchanged && metadataUnchanged then t
    else
      let next1 := if !contentUnchanged then { node0 with content := newContent } else node0
      let next2 :=
        if !metadataUnchanged && metadata.isSome then { next1 with metadata := newMetadata }
        else next1
      setEntry t id next2

/-- The root-rewriting stack walk of `makeRoot`, with fuel; the head of
`stack` is the top.  Each found node is rewritten to `root := rid`, then
its (preserved) active child and all its direct children are pushed. -/
def mkLoopF (rid : String) : Nat → Table → List String → List String → Option Table
  | 0, _, _, _ => none
  | _+1, draft, _, [] => some draft
  | fuel+1, draft, seen, x :: stack =>
    if x ∈ seen then mkLoopF rid fuel draft seen stack
    else
      match lookup draft x with
      | none => mkLoopF rid fuel draft (x :: seen) stack
      | some cur =>
        let draft' := setEntry draft x { cur with root := rid }
        let s1 := match cur.child with
          | some c => if c == "" then stack else c :: stack
          | none => stack
        mkLoopF rid fuel draft' (x :: seen) (((getChildren draft' x).map (·.id)).reverse ++ s1)

/-- The detach phase of `makeRoot`: when the node has a truthy parent,
clear that parent's active-child pointer if it points here, and clear
the node's own parent pointer (keeping its child). -/
def mkDetach (t : Table) (id : String) (node : Node) : Table :=
  match node.parent with
  | some p =>
    if p == "" then t
    else
      let da := detachParent t id node
      match lookup da id with
      | some nd => setEntry da id { nd with parent := none }
      | none => da
  | none => t

/-- `makeRoot`: no-op on a missing id; otherwise detach the node from a
truthy parent (clearing that parent's active-child pointer when it points
here) while keeping the node's own child, then re-stamp `root := id` over
the node and everything reachable through child pointers and children. -/
def makeRoot (t : Table) (id : String) : Table :=
  match lookup t id with
  | none => t
  | some node => (mkLoopF id (stackBound t) (mkDetach t id node) [] [id]).getD t

/-- The data-model well-formedness of a table (spec §3: a mapping from id
to node with unique ids): every entry is keyed by its node's id, ids are
nonempty, keys are unique, and pointer fields never hold the empty
string (which is not an id). -/
def WellFormed (t : Table) : Prop :=
  (∀ e ∈ t, e.1 = e.2.id ∧ e.1 ≠ "") ∧ (keysOf t).Nodup ∧
  (∀ e ∈ t, e.2.parent ≠ some "" ∧ e.2.child ≠ some "")

instance (t : Table) : Decidable (WellFormed t) := by
  unfold WellFormed; infer_instance

end MessageNodes

namespace MessageNodes
/-! ### Basic lemmas about the table operations -/

theorem lookup_nil (k : String) : lookup [] k = none := rfl

theorem lookup_cons (e : String × Node) (t : Table) (k : String) :
    lookup (e :: t) k = if e.1 = k then some e.2 else lookup t k := by
  unfold lookup
  by_cases h : e.1 = k
  · rw [List.find?_cons_of_pos _ (by simpa using h), if_pos h]
  · rw [List.find?_cons_of_neg _ (by simpa using h), if_neg h]

theorem lookup_mem {t : Table} {k : String} {n : Node} (h : lookup t k = some n) :
    (k, n) ∈ t := by
  induction t with
  | nil => simp [lookup_nil] at h
  | cons hd tl ih =>
    rw [lookup_cons] at h
    by_cases hk : hd.1 = k
    · rw [if_pos hk] at h
      obtain rfl : hd.2 = n := by simpa using h
      simp [← hk]
    · rw [if_neg hk] at h
      exact List.mem_cons_of_mem _ (ih h)

theorem lookup_eq_none_forall {t : Table} {k : String} (h : lookup t k = none) :
    ∀ e ∈ t, e.1 ≠ k := by
  induction t with
  | nil => simp
  | cons hd tl ih =>
    rw [lookup_cons] at h
    by_cases hk : hd.1 = k
    · rw [if_pos hk] at h; simp at h
    · rw [if_neg hk] at h
      intro e he
      rcases List.mem_cons.mp he with rfl | htl
      · exact hk
      · exact ih h e htl

theorem lookup_isSome_iff {t : Table} {k : String} :
    (lookup t k).isSome ↔ k ∈ keysOf t := by
  induction t with
  | nil => simp [lookup_nil, keysOf]
  | cons hd tl ih =>
    rw [lookup_cons]
    by_cases hk : hd.1 = k
    · simp [keysOf, hk]
    · rw [if_neg hk]
      simp only [keysOf, List.map_cons, List.mem_cons]
      rw [ih]
      simp [keysOf, Ne.symm hk]

theorem lookup_of_mem_nodup {t : Table} {e : String × Node} (hnd : (keysOf t).Nodup)
    (he : e ∈ t) : lookup t e.1 = some e.2 := by
  induction t with
  | nil => simp at he
  | cons hd tl ih =>
    simp only [keysOf, List.map_cons, List.nodup_cons] at hnd
    rw [lookup_cons]
    rcases List.mem_cons.mp he with rfl | htl
    · rw [if_pos rfl]
    · have hne : hd.1 ≠ e.1 := fun hc => hnd.1 (hc ▸ List.mem_map_of_mem _ htl)
      rw [if_neg hne]
      exact ih hnd.2 htl

/-- In a well-formed table, each node value can be looked up by its id. -/
theorem lookup_id_of_mem_wf {t : Table} {n : Node} (hwf : WellFormed t)
    (hn : n ∈ tvalues t) : lookup t n.id = some n := by
  obtain ⟨e, he, hv⟩ := List.mem_map.mp hn
  have hk : e.1 = n.id := by rw [(hwf.1 e he).1, hv]
  have := lookup_of_mem_nodup hwf.2.1 he
  rw [hk, hv] at this
  exact this

/-- In a well-formed table, a looked-up node carries the key as its id. -/
theorem id_of_lookup_wf {t : Table} {k : String} {n : Node} (hwf : WellFormed t)
    (h : lookup t k = some n) : n.id = k :=
  ((hwf.1 _ (lookup_mem h)).1).symm

theorem mem_tvalues_of_lookup {t : Table} {k : String} {n : Node}
    (h : lookup t k = some n) : n ∈ tvalues t :=
  List.mem_map_of_mem _ (lookup_mem h)

theorem keysOf_eq_map_id_of_wf {t : Table} (hwf : WellFormed t) :
    keysOf t = (tvalues t).map (·.id) := by
  unfold keysOf tvalues
  rw [List.map_map]
  exact List.map_congr_left fun e he => (hwf.1 e he).1

/-- In a well-formed table the node ids are distinct. -/
theorem nodupIds_of_wf {t : Table} (hwf : WellFormed t) :
    ((tvalues t).map (·.id)).Nodup := by
  rw [← keysOf_eq_map_id_of_wf hwf]; exact hwf.2.1

theorem setEntry_of_present {t : Table} {k : String} (v : Node)
    (h : (lookup t k).isSome) :
    setEntry t k v = t.map (fun e => if e.1 == k then (e.1, v) else e) := by
  unfold setEntry
  rw [if_pos h]

theorem lookup_map_update (t : Table) (k k' : String) (v : Node) :
    lookup (t.map (fun e => if e.1 == k then (e.1, v) else e)) k' =
      if k = k' then (lookup t k).map (fun _ => v) else lookup t k' := by
  induction t with
  | nil => simp [lookup_nil]
  | cons hd tl ih =>
    simp only [List.map_cons]
    by_cases hk : hd.1 = k
    · by_cases hkk : k = k'
      · subst hkk; simp [lookup_cons, hk]
      · simp [lookup_cons, hk, hkk] at ih ⊢; rw [ih]
    · by_cases hkk : k = k'
      · subst hkk; simp [lookup_cons, hk] at ih ⊢; exact ih
      · simp [lookup_cons, hk, hkk] at ih ⊢; rw [ih]

theorem lookup_setEntry (t : Table) (k k' : String) (v : Node) (h : (lookup t k).isSome) :
    lookup (setEntry t k v) k' = if k = k' then some v else lookup t k' := by
  rw [setEntry_of_present v h, lookup_map_update]
  by_cases hkk : k = k'
  · subst hkk
    obtain ⟨n, hn⟩ := Option.isSome_iff_exists.mp h
    simp [hn]
  · simp [hkk]

theorem lookup_setEntry_self {t : Table} {k : String} (v : Node)
    (h : (lookup t k).isSome) : lookup (setEntry t k v) k = some v := by
  rw [lookup_setEntry t k k v h, if_pos rfl]

theorem lookup_setEntry_other {t : Table} {k k' : String} (v : Node)
    (h : (lookup t k).isSome) (hne : k ≠ k') :
    lookup (setEntry t k v) k' = lookup t k' := by
  rw [lookup_setEntry t k k' v h, if_neg hne]

theorem keysOf_setEntry_of_present {t : Table} {k : String} (v : Node)
    (h : (lookup t k).isSome) : keysOf (setEntry t k v) = keysOf t := by
  rw [setEntry_of_present v h]
  unfold keysOf
  rw [List.map_map]
  exact List.map_congr_left fun e _ => by by_cases hk : e.1 = k <;> simp [hk]

theorem length_setEntry_of_present {t : Table} {k : String} (v : Node)
    (h : (lookup t k).isSome) : (setEntry t k v).length = t.length := by
  rw [setEntry_of_present v h, List.length_map]

/-- Replacing the entry of key `k` in a well-formed table rewrites the node
list pointwise at the node whose id is `k`. -/
theorem tvalues_setEntry_wf {t : Table} {k : String} (v : Node) (hwf : WellFormed t)
    (h : (lookup t k).isSome) :
    tvalues (setEntry t k v) = (tvalues t).map (fun n => if n.id = k then v else n) := by
  rw [setEntry_of_present v h]
  unfold tvalues
  rw [List.map_map, List.map_map]
  refine List.map_congr_left fun e he => ?_
  have hid := (hwf.1 e he).1
  by_cases hk : e.1 = k <;> simp [Function.comp, hk, ← hid]

theorem lookup_eraseEntry (t : Table) (k k' : String) :
    lookup (eraseEntry t k) k' = if k' = k then none else lookup t k' := by
  induction t with
  | nil => by_cases h : k' = k <;> simp [lookup_nil, eraseEntry, h]
  | cons hd tl ih =>
    unfold eraseEntry at ih ⊢
    rw [List.filter_cons]
    by_cases hh : hd.1 = k
    · rw [if_neg (by simpa using hh), ih]
      by_cases hkk : k' = k
      · simp [hkk]
      · rw [if_neg hkk, if_neg hkk, lookup_cons, if_neg (fun hc => hkk (by rw [← hc, hh]))]
    · rw [if_pos (by simpa using hh), lookup_cons, lookup_cons]
      by_cases hdk : hd.1 = k'
      · rw [if_pos hdk, if_pos hdk, if_neg (fun hc => hh (hdk.trans hc))]
      · rw [if_neg hdk, if_neg hdk, ih]

theorem keysOf_eraseEntry (t : Table) (k : String) :
    keysOf (eraseEntry t k) = (keysOf t).filter (fun x => !(x == k)) := by
  induction t with
  | nil => rfl
  | cons hd tl ih =>
    unfold eraseEntry keysOf at ih ⊢
    rw [List.filter_cons, List.map_cons, List.filter_cons]
    by_cases hh : hd.1 = k
    · rw [if_neg (by simpa using hh), if_neg (by simpa using hh), ih]
    · rw [if_pos (by simpa using hh), if_pos (by simpa using hh), List.map_cons, ih]

theorem filter_map_comm_mem {α : Type} (f : α → α) (p : α → Bool) (l : List α)
    (h : ∀ a ∈ l, p (f a) = p a) :
    (l.map f).filter p = (l.filter p).map f := by
  induction l with
  | nil => rfl
  | cons a l ih =>
    have ha := h a (List.mem_cons_self a l)
    have ih' := ih fun x hx => h x (List.mem_cons_of_mem _ hx)
    simp only [List.map_cons, List.filter_cons, ha]
    cases hp : p a <;> simp [hp, ih']

/-- In a well-formed table a node value is determined by its id. -/
theorem eq_of_mem_tvalues_id_wf {t : Table} {n m : Node} {k : String} (hwf : WellFormed t)
    (hn : n ∈ tvalues t) (hid : n.id = k) (hk : lookup t k = some m) : n = m := by
  have := lookup_id_of_mem_wf hwf hn
  rw [hid, hk] at this
  exact (Option.some.inj this).symm

/-- Replacing a node by one with the same parent pointer leaves every
children list intact except for substituting the replaced node. -/
theorem getChildren_setEntry_wf {t : Table} {k : String} {old v : Node} (pid : String)
    (hwf : WellFormed t) (hk : lookup t k = some old) (hpar : v.parent = old.parent) :
    getChildren (setEntry t k v) pid =
      (getChildren t pid).map (fun n => if n.id = k then v else n) := by
  unfold getChildren
  rw [tvalues_setEntry_wf v hwf (by simp [hk])]
  exact filter_map_comm_mem _ _ _ fun n hn => by
    by_cases hid : n.id = k
    · have hno : n = old := eq_of_mem_tvalues_id_wf hwf hn hid hk
      have hok : old.id = k := id_of_lookup_wf hwf hk
      simp [hid, hno, hok, hpar]
    · simp [hid]

/-! ### The spec's example linear table `{root -> a -> b -> c}` -/

/-- A node of the spec's example scenario. -/
def exNode (id : String) (parent child : Option String) : Node :=
  { id := id, role := "user", content := id, root := "root",
    parent := parent, child := child, metadata := none }

/-- The spec's example table `{root → a → b → c}`: linear, each node
pointing to the next via `child` and to the previous via `parent`. -/
def exLinearTable : Table :=
  [("root", exNode "root" none (some "a")),
   ("a", exNode "a" (some "root") (some "b")),
   ("b", exNode "b" (some "a") (some "c")),
   ("c", exNode "c" (some "b") none)]

/-- C6 counterexample: on the spec's example linear table, the current
`getConversation` does *not* return `[a, b, c]` — the root node is
included as the first element of the result. -/
theorem getConversation_excludes_root_false :
    ¬ ((getConversation exLinearTable "root").map (·.id) = ["a", "b", "c"]) := by
  decide

/-- C6 amended: on the spec's example linear table `{root → a → b → c}`,
`getConversation t "root"` returns exactly `[root, a, b, c]` — the root
node itself *is* the first element of the result, followed by the active
chain `a, b, c` in order. -/
theorem getConversation_includes_root :
    getConversation exLinearTable "root" =
      [exNode "root" none (some "a"), exNode "a" (some "root") (some "b"),
       exNode "b" (some "a") (some "c"), exNode "c" (some "b") none] := by
  decide

/-- C9: for a parent whose children in table order are `[ca, cb]` with
active child `ca`, applying `nextChild` and then `lastChild` restores the
parent's active-child pointer to `ca`. -/
theorem nextChild_lastChild_roundtrip (t : Table) (hwf : WellFormed t) (pid : String)
    (p ca cb : Node) (hp : lookup t pid = some p)
    (hch : getChildren t pid = [ca, cb]) (hact : p.child = some ca.id) :
    ∃ p', lookup (lastChild (nextChild t pid) pid) pid = some p' ∧
      p'.child = some ca.id := by
  have hpid : p.id = pid := id_of_lookup_wf hwf hp
  have hca_ch : ca ∈ getChildren t pid := by rw [hch]; exact List.mem_cons_self _ _
  have hcb_ch : cb ∈ getChildren t pid := by rw [hch]; simp
  have hca_mem : ca ∈ tvalues t := List.mem_of_mem_filter hca_ch
  have hcb_mem : cb ∈ tvalues t := List.mem_of_mem_filter hcb_ch
  have hca_par : ca.parent = some pid := by simpa using List.of_mem_filter hca_ch
  have hcb_par : cb.parent = some pid := by simpa using List.of_mem_filter hcb_ch
  have hnodup : ((getChildren t pid).map (·.id)).Nodup :=
    ((List.filter_sublist _).map _).nodup (nodupIds_of_wf hwf)
  have hne : ca.id ≠ cb.id := by
    rw [hch] at hnodup
    simpa using hnodup
  have hpresent : (lookup t pid).isSome := by simp [hp]
  -- `nextChild` moves the active child to `cb`
  have hstep1 : nextChild t pid = setChild t pid (some cb.id) := by
    unfold nextChild
    rw [hp]
    simp only [hch, List.findIdx?_cons, hact]
    simp [hne]
  have hlcb : lookup t cb.id = some cb := lookup_id_of_mem_wf hwf hcb_mem
  have hstep2 : setChild t pid (some cb.id) = setEntry t pid { p with child := some cb.id } := by
    unfold setChild
    rw [hp]
    simp [hlcb, hcb_par, hact, hne]
  set p2 : Node := { p with child := some cb.id } with hp2
  have hl2 : lookup (setEntry t pid p2) pid = some p2 := lookup_setEntry_self _ hpresent
  have hch2 : getChildren (setEntry t pid p2) pid =
      [if ca.id = pid then p2 else ca, if cb.id = pid then p2 else cb] := by
    rw [getChildren_setEntry_wf (v := p2) pid hwf hp rfl, hch]
    rfl
  have hrca_id : (if ca.id = pid then p2 else ca).id = ca.id := by
    by_cases h : ca.id = pid
    · simp [h, hp2, hpid]
    · simp [h]
  have hrcb_id : (if cb.id = pid then p2 else cb).id = cb.id := by
    by_cases h : cb.id = pid
    · simp [h, hp2, hpid]
    · simp [h]
  -- `lastChild` moves the active child back to `ca`
  have hstep3 : lastChild (setEntry t pid p2) pid =
      setChild (setEntry t pid p2) pid (some ca.id) := by
    unfold lastChild
    rw [hl2]
    simp only [hch2, List.findIdx?_cons, hrca_id, hrcb_id]
    have hc2 : p2.child = some cb.id := rfl
    simp [hc2, hne, Ne.symm hne, hrca_id]
  have hstep4 : setChild (setEntry t pid p2) pid (some ca.id) =
      setEntry (setEntry t pid p2) pid { p2 with child := some ca.id } := by
    unfold setChild
    rw [hl2]
    by_cases hcid : pid = ca.id
    · have hlca : lookup (setEntry t pid p2) ca.id = some p2 := by rw [← hcid]; exact hl2
      have hcap : ca = p := eq_of_mem_tvalues_id_wf hwf hca_mem hcid.symm hp
      have hpp : p.parent = some pid := by rw [← hcap]; exact hca_par
      simp [hlca, hpp, Ne.symm hne]
    · have hlca : lookup (setEntry t pid p2) ca.id = some ca := by
        rw [lookup_setEntry_other _ hpresent hcid]
        exact lookup_id_of_mem_wf hwf hca_mem
      simp [hlca, hca_par, Ne.symm hne]
  refine ⟨{ p2 with child := some ca.id }, ?_, rfl⟩
  rw [hstep1, hstep2, hstep3, hstep4]
  exact lookup_setEntry_self _ (by simp [hl2])

/-- C9 witness table: a parent with two children in table order, the
first being the active child. -/
def exBranchTable : Table :=
  [("r", { id := "r", role := "user", content := "r", root := "r",
           child := some "x" }),
   ("x", { id := "x", role := "user", content := "x", root := "r",
           parent := some "r" }),
   ("y", { id := "y", role := "user", content := "y", root := "r",
           parent := some "r" })]

/-- C9 witness: the roundtrip theorem applied to the concrete two-child
table restores the active child `x`. -/
theorem nextChild_lastChild_roundtrip_witness :
    ∃ p', lookup (lastChild (nextChild exBranchTable "r") "r") "r" = some p' ∧
      p'.child = some "x" := by
  obtain ⟨p', h1, h2⟩ := nextChild_lastChild_roundtrip exBranchTable (by decide) "r"
    { id := "r", role := "user", content := "r", root := "r", child := some "x" }
    { id := "x", role := "user", content := "x", root := "r", parent := some "r" }
    { id := "y", role := "user", content := "y", root := "r", parent := some "r" }
    (by decide) (by decide) (by decide)
  exact ⟨p', h1, h2⟩

/-- C2: every rejected or no-op path of every mutation function returns
the input table itself (reference identity in the source; the early
returns hand back `mappings` unchanged, before any node is touched).
The conjuncts cover: `setChild` (missing parent, missing child, child not
claiming this parent, unchanged value), `nextChild`/`lastChild` (missing
parent, active child not found, no further sibling), `addNode` (duplicate
id, missing truthy parent, missing truthy child), `branchNode` (missing
id, duplicate sibling, missing declared parent), `updateContent` (missing
id, both resulting values unchanged), `unlinkNode` (missing id, already
isolated), `deleteNode` and `makeRoot` (missing id). -/
theorem mutation_noop_paths (t : Table) :
    (∀ pid c, lookup t pid = none → setChild t pid c = t) ∧
    (∀ pid cid p0, lookup t pid = some p0 → lookup t cid = none →
      setChild t pid (some cid) = t) ∧
    (∀ pid cid p0 c0, lookup t pid = some p0 → lookup t cid = some c0 →
      c0.parent ≠ some pid → setChild t pid (some cid) = t) ∧
    (∀ pid c p0, lookup t pid = some p0 → p0.child = c → setChild t pid c = t) ∧
    (∀ pid, lookup t pid = none → nextChild t pid = t) ∧
    (∀ pid p0, lookup t pid = some p0 →
      (getChildren t pid).findIdx? (fun c => p0.child == some c.id) = none →
      nextChild t pid = t) ∧
    (∀ pid p0 idx, lookup t pid = some p0 →
      (getChildren t pid).findIdx? (fun c => p0.child == some c.id) = some idx →
      idx + 1 ≥ (getChildren t pid).length → nextChild t pid = t) ∧
    (∀ pid, lookup t pid = none → lastChild t pid = t) ∧
    (∀ pid p0, lookup t pid = some p0 →
      (getChildren t pid).findIdx? (fun c => p0.child == some c.id) = none →
      lastChild t pid = t) ∧
    (∀ pid p0, lookup t pid = some p0 →
      (getChildren t pid).findIdx? (fun c => p0.child == some c.id) = some 0 →
      lastChild t pid = t) ∧
    (∀ id role content r pa c m, hasNode t id →
      addNode t id role content r pa c m = t) ∧
    (∀ id role content r p c m, p ≠ "" → lookup t p = none →
      addNode t id role content r (some p) c m = t) ∧
    (∀ id role content r pa c m,
      (∀ p, pa = some p → p = "" ∨ (lookup t p).isSome) → c ≠ "" → lookup t c = none →
      addNode t id role content r pa (some c) m = t) ∧
    (∀ id s c m, lookup t id = none → branchNode t id s c m = t) ∧
    (∀ id s c m, hasNode t s → branchNode t id s c m = t) ∧
    (∀ id s c m n0 p, lookup t id = some n0 → n0.parent = some p → p ≠ "" →
      lookup t p = none → branchNode t id s c m = t) ∧
    (∀ id ca ma, lookup t id = none → updateContent t id ca ma = t) ∧
    (∀ id ca ma n0, lookup t id = some n0 → newContentOf n0 ca = n0.content →
      (ma = none ∨ newMetadataOf n0 ma = n0.metadata) → updateContent t id ca ma = t) ∧
    (∀ id, lookup t id = none → unlinkNode t id = t) ∧
    (∀ id n0, lookup t id = some n0 → n0.parent = none → n0.child = none →
      n0.root = id → unlinkNode t id = t) ∧
    (∀ id, lookup t id = none → deleteNode t id = t) ∧
    (∀ id, lookup t id = none → makeRoot t id = t) := by
  refine ⟨?_, ?_, ?_, ?_, ?_, ?_, ?_, ?_, ?_, ?_, ?_, ?_, ?_, ?_, ?_, ?_, ?_, ?_, ?_, ?_, ?_, ?_⟩
  · intro pid c h; unfold setChild; rw [h]
  · intro pid cid p0 hp hc; unfold setChild; rw [hp]; simp [hc]
  · intro pid cid p0 c0 hp hc hpar; unfold setChild; rw [hp]; simp [hc, hpar]
  · intro pid c p0 hp hch; unfold setChild; rw [hp]; simp [← hch]
  · intro pid h; unfold nextChild; rw [h]
  · intro pid p0 hp hidx; unfold nextChild; rw [hp]; simp only [hidx]
  · intro pid p0 idx hp hidx hge; unfold nextChild; rw [hp]
    simp only [hidx]
    rw [if_pos hge]
  · intro pid h; unfold lastChild; rw [h]
  · intro pid p0 hp hidx; unfold lastChild; rw [hp]; simp [hidx]
  · intro pid p0 hp hidx; unfold lastChild; rw [hp]; simp [hidx]
  · intro id role content r pa c m h; unfold addNode; rw [if_pos h]
  · intro id role content r p c m hne h; unfold addNode
    by_cases hid : hasNode t id
    · rw [if_pos hid]
    · rw [if_neg hid]; simp [hne, h]
  · intro id role content r pa c m hpok hne h; unfold addNode
    by_cases hid : hasNode t id
    · rw [if_pos hid]
    · rw [if_neg hid]
      have hpok' : (match pa with
        | some p => if p == "" then true else (lookup t p).isSome
        | none => true) = true := by
        cases pa with
        | none => rfl
        | some p =>
          rcases hpok p rfl with hpe | hps
          · simp [hpe]
          · by_cases hpe : p = "" <;> simp [hpe, hps]
      simp only [hpok', Bool.not_true, Bool.false_eq_true, if_false]
      simp [hne, h]
  · intro id s c m h; unfold branchNode; rw [h]
  · intro id s c m h; unfold branchNode
    cases hl : lookup t id with
    | none => rfl
    | some n0 => simp [h]
  · intro id s c m n0 p hid hpar hpe hpl; unfold branchNode
    rw [hid]
    by_cases hs : hasNode t s
    · simp [hs]
    · simp [hs, hpar, hpe, hpl]
  · intro id ca ma h; unfold updateContent; rw [h]
  · intro id ca ma n0 hid hcu hmu; unfold updateContent
    rw [hid]
    have h1 : (n0.content == newContentOf n0 ca) = true := by simp [hcu]
    have h2 : (!ma.isSome || (n0.metadata == newMetadataOf n0 ma)) = true := by
      rcases hmu with rfl | hmeq
      · rfl
      · simp [hmeq]
    simp [h1, h2]
    intro hma hmn
    exfalso
    rcases hmu with rfl | hmeq
    · exact hma rfl
    · exact hmn hmeq.symm
  · intro id h; unfold unlinkNode; rw [h]
  · intro id n0 hid hp hc hr; unfold unlinkNode; rw [hid]; simp [hp, hc, hr]
  · intro id h; unfold deleteNode; rw [h]
  · intro id h; unfold makeRoot; rw [h]

/-- C2 witness: representative rejected/no-op calls on the concrete
example table, each discharged through `mutation_noop_paths`. -/
theorem mutation_noop_paths_witness :
    setChild exLinearTable "ghost" none = exLinearTable ∧
    setChild exLinearTable "root" (some "c") = exLinearTable ∧
    setChild exLinearTable "root" (some "a") = exLinearTable ∧
    nextChild exLinearTable "ghost" = exLinearTable ∧
    lastChild exLinearTable "ghost" = exLinearTable ∧
    addNode exLinearTable "a" "user" "x" none none none none = exLinearTable ∧
    addNode exLinearTable "x" "user" "x" none (some "ghost") none none = exLinearTable ∧
    addNode exLinearTable "x" "user" "x" none (some "a") (some "ghost") none = exLinearTable ∧
    branchNode exLinearTable "ghost" "s" "c" none = exLinearTable ∧
    branchNode exLinearTable "a" "b" "c" none = exLinearTable ∧
    updateContent exLinearTable "ghost" (ContentArg.lit "z") none = exLinearTable ∧
    updateContent exLinearTable "a" (ContentArg.lit "a") none = exLinearTable ∧
    unlinkNode exLinearTable "ghost" = exLinearTable ∧
    deleteNode exLinearTable "ghost" = exLinearTable ∧
    makeRoot exLinearTable "ghost" = exLinearTable := by
  obtain ⟨h1, h2, h3, h4, h5, h6, h7, h8, h9, h10, h11, h12, h13, h14, h15, h16, h17, h18,
    h19, h20, h21, h22⟩ := mutation_noop_paths exLinearTable
  refine ⟨h1 "ghost" none (by decide),
    h3 "root" "c" (exNode "root" none (some "a")) (exNode "c" (some "b") none)
      (by decide) (by decide) (by decide),
    h4 "root" (some "a") (exNode "root" none (some "a")) (by decide) (by decide),
    h5 "ghost" (by decide),
    h8 "ghost" (by decide),
    h11 "a" "user" "x" none none none none (by decide),
    h12 "x" "user" "x" none "ghost" none none (by decide) (by decide),
    h13 "x" "user" "x" none (some "a") "ghost" none ?_ (by decide) (by decide),
    h14 "ghost" "s" "c" none (by decide),
    h15 "a" "b" "c" none (by decide),
    h17 "ghost" (ContentArg.lit "z") none (by decide),
    h18 "a" (ContentArg.lit "a") none (exNode "a" (some "root") (some "b")) (by decide)
      (by decide) (Or.inl rfl),
    h19 "ghost" (by decide),
    h21 "ghost" (by decide),
    h22 "ghost" (by decide)⟩
  intro p hp
  cases hp
  exact Or.inr (by decide)

/-- C8: with `id` present, `updateContent` returns its input table exactly
when both the resulting content and the resulting metadata (the previous
metadata when the argument is omitted) equal the node's previous values;
when either differs, the result holds a new node value for `id`. -/
theorem updateContent_noop_characterization (t : Table) (id : String) (n0 : Node)
    (ca : ContentArg) (ma : Option MetaArg) (hid : lookup t id = some n0) :
    (updateContent t id ca ma = t ↔
      (newContentOf n0 ca = n0.content ∧
        (if ma.isSome then newMetadataOf n0 ma else n0.metadata) = n0.metadata)) ∧
    (¬(newContentOf n0 ca = n0.content ∧
        (if ma.isSome then newMetadataOf n0 ma else n0.metadata) = n0.metadata) →
      ∃ n', lookup (updateContent t id ca ma) id = some n' ∧ n' ≠ n0) := by
  have hpres : (lookup t id).isSome := by simp [hid]
  cases hb1 : (n0.content == newContentOf n0 ca) with
  | true =>
    have hc1 : newContentOf n0 ca = n0.content := (eq_of_beq hb1).symm
    cases hb2 : (!ma.isSome || (n0.metadata == newMetadataOf n0 ma)) with
    | true =>
      have hc2 : (if ma.isSome then newMetadataOf n0 ma else n0.metadata) = n0.metadata := by
        cases hs : ma.isSome
        · simp
        · rw [hs] at hb2
          simp only [Bool.not_true, Bool.false_or] at hb2
          simp [eq_of_beq hb2]
      have hred : updateContent t id ca ma = t := by
        unfold updateContent
        rw [hid]
        simp only [hb1, hb2, Bool.and_self, if_true]
      refine ⟨iff_of_true hred ⟨hc1, hc2⟩, fun h => absurd ⟨hc1, hc2⟩ h⟩
    | false =>
      have hms : ma.isSome = true := by
        cases hs : ma.isSome
        · rw [hs] at hb2; simp at hb2
        · rfl
      have hmne : ¬ n0.metadata = newMetadataOf n0 ma := by
        intro hc
        rw [hms, hc] at hb2
        simp at hb2
      have hred : updateContent t id ca ma =
          setEntry t id { n0 with metadata := newMetadataOf n0 ma } := by
        unfold updateContent
        rw [hid]
        simp [hb1, hb2, hms, hmne]
      have hne : ({ n0 with metadata := newMetadataOf n0 ma } : Node) ≠ n0 := by
        intro hc
        exact hmne (by simpa using (congrArg Node.metadata hc).symm)
      have hlook : lookup (updateContent t id ca ma) id =
          some { n0 with metadata := newMetadataOf n0 ma } := by
        rw [hred]; exact lookup_setEntry_self _ hpres
      have hnoteq : ¬ updateContent t id ca ma = t := by
        intro hc
        rw [hc, hid] at hlook
        exact hne (Option.some.inj hlook).symm
      refine ⟨iff_of_false hnoteq ?_, fun _ => ⟨_, hlook, hne⟩⟩
      rintro ⟨-, h2⟩
      rw [if_pos hms] at h2
      exact hmne h2.symm
  | false =>
    have hc1 : ¬ newContentOf n0 ca = n0.content := by
      intro hc
      rw [← hc] at hb1
      simp at hb1
    cases hb2 : (!ma.isSome || (n0.metadata == newMetadataOf n0 ma)) with
    | true =>
      have hred : updateContent t id ca ma =
          setEntry t id { n0 with content := newContentOf n0 ca } := by
        unfold updateContent
        rw [hid]
        simp only [hb1, hb2, Bool.false_and, Bool.false_eq_true, if_false, Bool.not_false,
          if_true, Bool.not_true, Bool.and_false]
      have hne : ({ n0 with content := newContentOf n0 ca } : Node) ≠ n0 := by
        intro hc
        exact hc1 (by simpa using (congrArg Node.content hc))
      have hlook : lookup (updateContent t id ca ma) id =
          some { n0 with content := newContentOf n0 ca } := by
        rw [hred]; exact lookup_setEntry_self _ hpres
      have hnoteq : ¬ updateContent t id ca ma = t := by
        intro hc
        rw [hc, hid] at hlook
        exact hne (Option.some.inj hlook).symm
      exact ⟨iff_of_false hnoteq (fun h => hc1 h.1), fun _ => ⟨_, hlook, hne⟩⟩
    | false =>
      have hms : ma.isSome = true := by
        cases hs : ma.isSome
        · rw [hs] at hb2; simp at hb2
        · rfl
      have hmne : ¬ n0.metadata = newMetadataOf n0 ma := by
        intro hc
        rw [hms, hc] at hb2
        simp at hb2
      have hred : updateContent t id ca ma =
          setEntry t id
            { n0 with content := newContentOf n0 ca, metadata := newMetadataOf n0 ma } := by
        unfold updateContent
        rw [hid]
        simp [hb1, hb2, hms, hmne]
      have hne : ({ n0 with content := newContentOf n0 ca, metadata := newMetadataOf n0 ma } : Node) ≠ n0 := by
        intro hc
        exact hc1 (by simpa using (congrArg Node.content hc))
      have hlook : lookup (updateContent t id ca ma) id =
          some { n0 with content := newContentOf n0 ca, metadata := newMetadataOf n0 ma } := by
        rw [hred]; exact lookup_setEntry_self _ hpres
      have hnoteq : ¬ updateContent t id ca ma = t := by
        intro hc
        rw [hc, hid] at hlook
        exact hne (Option.some.inj hlook).symm
      exact ⟨iff_of_false hnoteq (fun h => hc1 h.1), fun _ => ⟨_, hlook, hne⟩⟩

/-- C8 witness: on the example table, replacing node `a`'s content with
the identical literal and omitting metadata is a no-op, via the
characterization theorem. -/
theorem updateContent_noop_characterization_witness :
    updateContent exLinearTable "a" (ContentArg.lit "a") none = exLinearTable := by
  have h := (updateContent_noop_characterization exLinearTable "a"
    (exNode "a" (some "root") (some "b")) (ContentArg.lit "a") none (by decide)).1
  exact h.mpr (by decide)

/-! ### addNode: root recomputation and successful insertion -/

/-- The root value `addNode` stores, extracted from its source: the new id
itself when the parent argument is falsy, else the id of
`getRoot(table, parent)` with the parent id as fallback. -/
def rootComputed (t : Table) (id : String) (parentArg : Option String) : String :=
  match parentArg with
  | some p =>
    if p == "" then id
    else
      match getRoot t p with
      | some rn => rn.id
      | none => p
  | none => id

/-- The node record a successful `addNode` inserts. -/
def freshNode (id role content root : String) (parentArg childArg : Option String)
    (m : Option String) : Node :=
  { id := id, role := role, content := content, root := root,
    parent := parentArg, child := childArg, metadata := m }

theorem getRootLoopF_mem {t : Table} : ∀ {fuel : Nat} {n cur : Node},
    getRootLoopF t fuel n = some cur → cur = n ∨ cur ∈ tvalues t := by
  intro fuel
  induction fuel with
  | zero => intro n cur h; simp [getRootLoopF] at h
  | succ fuel ih =>
    intro n cur h
    unfold getRootLoopF at h
    cases hp : n.parent with
    | none => simp only [hp] at h; exact Or.inl (Option.some.inj h).symm
    | some p =>
      simp only [hp] at h
      by_cases hpe : (p == "") = true
      · rw [if_pos hpe] at h; exact Or.inl (Option.some.inj h).symm
      · rw [if_neg hpe] at h
        cases hl : lookup t p with
        | none => rw [hl] at h; exact Or.inl (Option.some.inj h).symm
        | some pn =>
          rw [hl] at h
          rcases ih h with rfl | hm
          · exact Or.inr (mem_tvalues_of_lookup hl)
          · exact Or.inr hm

theorem getRoot_mem_tvalues {t : Table} {p : String} {rn : Node}
    (h : getRoot t p = some rn) : rn ∈ tvalues t := by
  unfold getRoot getRootF at h
  cases hl : lookup t p with
  | none => rw [hl] at h; simp at h
  | some pn =>
    simp only [hl] at h
    cases hloop : getRootLoopF t (t.length + 1) pn with
    | none => rw [hloop] at h; simp at h
    | some cur =>
      rw [hloop] at h
      obtain rfl : cur = rn := by simpa using h
      rcases getRootLoopF_mem hloop with rfl | hm
      · exact mem_tvalues_of_lookup hl
      · exact hm

theorem lookup_setEntry_absent (t : Table) (k k' : String) (v : Node)
    (h : lookup t k = none) :
    lookup (setEntry t k v) k' = if k = k' then some v else lookup t k' := by
  unfold setEntry
  rw [h]
  simp only [Option.isSome_none, Bool.false_eq_true, if_false]
  induction t with
  | nil =>
    simp [lookup_cons, lookup_nil]
  | cons hd tl ih =>
    rw [lookup_cons] at h
    by_cases hk : hd.1 = k
    · rw [if_pos hk] at h; simp at h
    · rw [if_neg hk] at h
      rw [List.cons_append, lookup_cons, lookup_cons]
      by_cases hh : hd.1 = k'
      · rw [if_pos hh, if_pos hh, if_neg (fun hc : k = k' => hk (by rw [hh, hc]))]
      · rw [if_neg hh, if_neg hh, ih h]

/-- A successful `addNode` stores exactly the node record built by the
source, with the recomputed root. -/
theorem addNode_success (t : Table) (id role content : String)
    (rootArg parentArg childArg : Option String) (m : Option String)
    (hwf : WellFormed t) (hfresh : lookup t id = none)
    (hpok : ∀ p, parentArg = some p → p = "" ∨ (lookup t p).isSome)
    (hcok : ∀ c, childArg = some c → c = "" ∨ (lookup t c).isSome) :
    lookup (addNode t id role content rootArg parentArg childArg m) id =
      some (freshNode id role content (rootComputed t id parentArg) parentArg childArg m) := by
  unfold addNode
  rw [if_neg (by simp [hasNode, hfresh])]
  have hokX : ∀ x : Option String, (∀ p, x = some p → p = "" ∨ (lookup t p).isSome) →
      (match x with
        | some p => if p == "" then true else (lookup t p).isSome
        | none => true) = true := by
    intro x hx
    cases x with
    | none => rfl
    | some p =>
      rcases hx p rfl with rfl | hps
      · simp
      · by_cases hpe : p = "" <;> simp [hpe, hps]
  rw [hokX parentArg hpok]
  simp only [Bool.not_true, Bool.false_eq_true, if_false]
  rw [hokX childArg hcok]
  simp only [Bool.not_true, Bool.false_eq_true, if_false]
  have hguard : (!(rootComputed t id parentArg == "") &&
      !(hasNode t (rootComputed t id parentArg)) &&
      !(rootComputed t id parentArg == id)) = false := by
    cases parentArg with
    | none => simp [rootComputed]
    | some p =>
      by_cases hpe : p = ""
      · simp [rootComputed, hpe]
      · rcases hpok p rfl with rfl | hps
        · simp at hpe
        · simp only [rootComputed]
          rw [if_neg (by simpa using hpe)]
          cases hr : getRoot t p with
          | none => simp [hasNode, hps]
          | some rn =>
            have : (lookup t rn.id).isSome := by
              rw [lookup_id_of_mem_wf hwf (getRoot_mem_tvalues hr)]; rfl
            simp [hasNode, this]
  have hrootX : ∀ x : Option String,
      (match x with
        | some p =>
          if p == "" then id
          else
            match getRoot t p with
            | some rn => rn.id
            | none => p
        | none => id) = rootComputed t id x := fun x => rfl
  rw [hrootX parentArg, hguard]
  simp only [Bool.false_eq_true, if_false]
  set newNode : Node :=
    freshNode id role content (rootComputed t id parentArg) parentArg childArg m with hnew
  have hd0 : lookup (setEntry t id newNode) id = some newNode := by
    rw [lookup_setEntry_absent t id id newNode hfresh, if_pos rfl]
  set d0 : Table := setEntry t id newNode with hd0def
  have hd1 : ∀ x : Option String, (∀ p, x = some p → p = "" ∨ (lookup t p).isSome) →
      lookup (match x with
        | some p =>
          if p == "" then d0
          else
            match lookup d0 p with
            | some pn => setEntry d0 p { pn with child := some id }
            | none => d0
        | none => d0) id = some newNode := by
    intro x hx
    cases x with
    | none => exact hd0
    | some p =>
      simp only []
      rcases hx p rfl with rfl | hps
      · rw [if_pos (by rfl)]
        exact hd0
      · have hpne : p ≠ id := by
          intro hc
          rw [hc, hfresh] at hps
          simp at hps
        by_cases hpe : (p == "") = true
        · rw [if_pos hpe]; exact hd0
        · rw [if_neg hpe]
          cases hl0 : lookup d0 p with
          | none => exact hd0
          | some pn =>
            rw [lookup_setEntry_other _ (by simp [hl0]) hpne]
            exact hd0
  have hstep : ∀ (x : Option String) (d1 : Table),
      (∀ c, x = some c → c = "" ∨ (lookup t c).isSome) → lookup d1 id = some newNode →
      lookup (match x with
        | some c =>
          if c == "" then d1
          else
            match lookup d1 c with
            | some cn => setEntry d1 c { cn with parent := some id }
            | none => d1
        | none => d1) id = some newNode := by
    intro x d1 hx h1
    cases x with
    | none => exact h1
    | some c =>
      simp only []
      rcases hx c rfl with rfl | hcs
      · rw [if_pos (by rfl)]
        exact h1
      · have hcne : c ≠ id := by
          intro hc
          rw [hc, hfresh] at hcs
          simp at hcs
        by_cases hce : (c == "") = true
        · rw [if_pos hce]; exact h1
        · rw [if_neg hce]
          cases hl1 : lookup d1 c with
          | none => exact h1
          | some cn =>
            rw [lookup_setEntry_other _ (by simp [hl1]) hcne]
            exact h1
  exact hstep childArg _ hcok (hd1 parentArg hpok)

/-- In a well-formed table, keys are nonempty strings. -/
theorem key_ne_empty {t : Table} {p : String} {pn : Node} (hwf : WellFormed t)
    (hp : lookup t p = some pn) : p ≠ "" :=
  (hwf.1 _ (lookup_mem hp)).2

/-- C5: the stored root of a successful `addNode` is recomputed and never
taken from the caller's root argument: the argument is ignored entirely;
with no parent the new node's root is its own id; with an existing parent
it is the id of `getRoot(table, parent)` (or the parent id as fallback). -/
theorem addNode_root_recomputation (t : Table) (hwf : WellFormed t)
    (id role content : String) (childArg : Option String) (m : Option String)
    (hfresh : lookup t id = none)
    (hcok : ∀ c, childArg = some c → c = "" ∨ (lookup t c).isSome) :
    (∀ r1 r2 parentArg,
      addNode t id role content r1 parentArg childArg m =
        addNode t id role content r2 parentArg childArg m) ∧
    (∀ rootArg,
      ∃ n, lookup (addNode t id role content rootArg none childArg m) id = some n ∧
        n.root = id) ∧
    (∀ rootArg p pn, lookup t p = some pn →
      ∃ n, lookup (addNode t id role content rootArg (some p) childArg m) id = some n ∧
        n.root = (match getRoot t p with | some rn => rn.id | none => p)) := by
  refine ⟨fun r1 r2 pa => rfl, ?_, ?_⟩
  · intro rootArg
    exact ⟨_, addNode_success t id role content rootArg none childArg m hwf hfresh
      (fun p hp => by cases hp) hcok, rfl⟩
  · intro rootArg p pn hp
    have hpe : p ≠ "" := key_ne_empty hwf hp
    refine ⟨_, addNode_success t id role content rootArg (some p) childArg m hwf hfresh
      (fun q hq => by cases hq; exact Or.inr (by simp [hp])) hcok, ?_⟩
    show rootComputed t id (some p) = _
    simp only [rootComputed]
    rw [if_neg (by simpa using hpe)]

/-- C5 witness: adding node `x` under existing parent `c` with a bogus
root hint stores the recomputed root (the id of `getRoot`), and without a
parent stores `x` itself. -/
theorem addNode_root_recomputation_witness :
    (∃ n, lookup (addNode exLinearTable "x" "user" "hi" (some "bogus") none none none) "x" =
        some n ∧ n.root = "x") ∧
    (∃ n, lookup (addNode exLinearTable "x" "user" "hi" (some "bogus") (some "c") none none) "x" =
        some n ∧
      n.root = (match getRoot exLinearTable "c" with | some rn => rn.id | none => "c")) := by
  have h := addNode_root_recomputation exLinearTable (by decide) "x" "user" "hi" none none
    (by decide) (fun c hc => by cases hc)
  exact ⟨h.2.1 (some "bogus"),
    h.2.2 (some "bogus") "c" (exNode "c" (some "b") none) (by decide)⟩

/-- C10: a successful `branchNode` stores a sibling node whose role is
copied from the node being branched, not supplied by the caller. -/
theorem branchNode_copies_role (t : Table) (hwf : WellFormed t)
    (idn sib content : String) (m : Option String) (node0 : Node)
    (hid : lookup t idn = some node0) (hsib : lookup t sib = none)
    (hpok : ∀ p, node0.parent = some p → p = "" ∨ (lookup t p).isSome) :
    ∃ n, lookup (branchNode t idn sib content m) sib = some n ∧ n.role = node0.role := by
  unfold branchNode
  simp only [hid]
  rw [if_neg (by simp [hasNode, hsib])]
  have hpmX : ∀ x : Option String, (∀ p, x = some p → p = "" ∨ (lookup t p).isSome) →
      (match x with
        | some p => !(p == "") && !(lookup t p).isSome
        | none => false) = false := by
    intro x hx
    cases x with
    | none => rfl
    | some p =>
      rcases hx p rfl with rfl | hps
      · simp
      · simp [hps]
  rw [hpmX node0.parent hpok]
  simp only [Bool.false_eq_true, if_false]
  exact ⟨_, addNode_success t sib node0.role content node0.root node0.parent none m hwf hsib
    hpok (fun c hc => by cases hc), rfl⟩

/-- C10 witness: branching node `a` of the example table yields a sibling
with `a`'s role. -/
theorem branchNode_copies_role_witness :
    ∃ n, lookup (branchNode exLinearTable "a" "s" "cc" none) "s" = some n ∧
      n.role = (exNode "a" (some "root") (some "b")).role := by
  exact branchNode_copies_role exLinearTable (by decide) "a" "s" "cc" none
    (exNode "a" (some "root") (some "b")) (by decide) (by decide)
    (fun p hp => by cases hp; exact Or.inr (by decide))

/-! ### Termination of the visited-set-guarded loops -/

/-- The ids of the table's nodes, in table order. -/
def nodeIds (t : Table) : List String := (tvalues t).map (·.id)

/-- How many elements of `l` are not yet in `seen`. -/
def unseenCount (l : List String) (seen : List String) : Nat :=
  (l.filter (fun a => decide (a ∉ seen))).length

theorem unseenCount_le_length (l seen : List String) : unseenCount l seen ≤ l.length :=
  (List.filter_sublist l).length_le

theorem filter_length_mono {α : Type} (p q : α → Bool) (l : List α)
    (h : ∀ a, p a = true → q a = true) :
    (l.filter p).length ≤ (l.filter q).length := by
  induction l with
  | nil => exact Nat.le_refl 0
  | cons a l ih =>
    rw [List.filter_cons, List.filter_cons]
    cases hp : p a
    · cases hq : q a
      · simpa using ih
      · simp only [if_pos rfl, List.length_cons]
        exact Nat.le_succ_of_le ih
    · rw [h a hp]
      simpa using Nat.succ_le_succ ih

theorem unseenCount_cons_le (l seen : List String) (x : String) :
    unseenCount l (x :: seen) ≤ unseenCount l seen := by
  apply filter_length_mono
  intro a ha
  simp only [decide_eq_true_eq] at ha ⊢
  exact fun hmem => ha (List.mem_cons_of_mem _ hmem)

theorem unseenCount_cons_lt (l seen : List String) (x : String)
    (hx : x ∈ l) (hnx : x ∉ seen) : unseenCount l (x :: seen) < unseenCount l seen := by
  induction l with
  | nil => simp at hx
  | cons a l ih =>
    unfold unseenCount at ih ⊢
    rw [List.filter_cons, List.filter_cons]
    rcases List.mem_cons.mp hx with rfl | htl
    · rw [if_neg (by simp), if_pos (by simpa using hnx)]
      exact Nat.lt_succ_of_le (unseenCount_cons_le l seen x)
    · by_cases hax : a = x
      · rw [if_neg (by simp [hax]), if_pos (by simp [hax, hnx])]
        exact Nat.lt_succ_of_le (unseenCount_cons_le l seen x)
      · cases has : decide (a ∉ seen) with
        | false =>
          rw [if_neg (by simp_all), if_neg (by simp [has])]
          exact ih htl
        | true =>
          rw [if_pos (by simp_all [Ne.symm hax]), if_pos (by simp [has])]
          exact Nat.succ_lt_succ (ih htl)

theorem getConvLoopF_isSome (t : Table) : ∀ (fuel : Nat) (seen : List String)
    (cid : Option String), unseenCount (nodeIds t) seen < fuel →
    (getConvLoopF t fuel seen cid).isSome := by
  intro fuel
  induction fuel with
  | zero => intro seen cid h; omega
  | succ fuel ih =>
    intro seen cid h
    cases cid with
    | none => simp [getConvLoopF]
    | some c =>
      unfold getConvLoopF
      by_cases hce : (c == "") = true
      · simp [hce]
      · rw [if_neg hce]
        cases hl : lookup t c with
        | none => simp
        | some cur =>
          simp only []
          by_cases hs : cur.id ∈ seen
          · simp [hs]
          · rw [if_neg hs]
            have hmem : cur.id ∈ nodeIds t := List.mem_map_of_mem _ (mem_tvalues_of_lookup hl)
            have hlt := unseenCount_cons_lt (nodeIds t) seen cur.id hmem hs
            have := ih (cur.id :: seen) cur.child (by omega)
            simpa using this

/-- The `getConversation` loop always finishes within `t.length + 1`
iterations, on any table. -/
theorem getConversationF_isSome (t : Table) (root : String) :
    (getConversationF t (t.length + 1) root).isSome := by
  unfold getConversationF
  cases hl : lookup t root with
  | none => simp
  | some rn =>
    have hle : unseenCount (nodeIds t) [rn.id] ≤ t.length := by
      have := unseenCount_le_length (nodeIds t) [rn.id]
      have hlen : (nodeIds t).length = t.length := by
        unfold nodeIds tvalues; simp
      omega
    have := getConvLoopF_isSome t (t.length + 1) [rn.id] rn.child (by omega)
    simpa using this

theorem getAncLoopF_isSome (t : Table) : ∀ (fuel : Nat) (seen : List String)
    (ocur : Option Node), (∀ n, ocur = some n → n ∈ tvalues t) →
    unseenCount (nodeIds t) seen < fuel →
    (getAncLoopF t fuel seen ocur).isSome := by
  intro fuel
  induction fuel with
  | zero => intro seen ocur _ h; omega
  | succ fuel ih =>
    intro seen ocur hmem h
    cases ocur with
    | none => simp [getAncLoopF]
    | some cur =>
      unfold getAncLoopF
      by_cases hs : cur.id ∈ seen
      · simp [hs]
      · rw [if_neg hs]
        have hcm : cur.id ∈ nodeIds t := List.mem_map_of_mem _ (hmem cur rfl)
        have hlt := unseenCount_cons_lt (nodeIds t) seen cur.id hcm hs
        have hnext : ∀ n, (match cur.parent with
            | some p => if p == "" then none else lookup t p
            | none => none) = some n → n ∈ tvalues t := by
          intro n hn
          cases hp : cur.parent with
          | none => simp only [hp] at hn; cases hn
          | some p =>
            simp only [hp] at hn
            by_cases hpe : (p == "") = true
            · rw [if_pos hpe] at hn; cases hn
            · rw [if_neg hpe] at hn
              exact mem_tvalues_of_lookup hn
        have := ih (cur.id :: seen) _ hnext (by omega)
        simpa using this

/-- The `getAncestry` loop always finishes within `t.length + 1`
iterations, on any table. -/
theorem getAncestryF_isSome (t : Table) (id : String) :
    (getAncestryF t (t.length + 1) id).isSome := by
  unfold getAncestryF
  cases hl : lookup t id with
  | none => simp
  | some s =>
    have hlen : (nodeIds t).length = t.length := by
      unfold nodeIds tvalues; simp
    have hle := unseenCount_le_length (nodeIds t) []
    exact getAncLoopF_isSome t (t.length + 1) [] (some s)
      (fun n hn => by cases hn; exact mem_tvalues_of_lookup hl) (by omega)

theorem tvalues_length (t : Table) : (tvalues t).length = t.length := by
  unfold tvalues; simp

theorem childIndex_length_le (t : Table) (p : String) :
    (childIndex t p).length ≤ t.length := by
  unfold childIndex
  rw [List.length_map]
  calc (List.filter _ (tvalues t)).length ≤ (tvalues t).length :=
        (List.filter_sublist _).length_le
    _ = t.length := tvalues_length t

theorem grmLoopF_isSome (t : Table) : ∀ (fuel : Nat) (out : Table)
    (seen stack : List String),
    stack.length + (t.length + 1) * unseenCount (keysOf t) seen < fuel →
    (grmLoopF t fuel out seen stack).isSome := by
  intro fuel
  induction fuel with
  | zero => intro out seen stack h; omega
  | succ fuel ih =>
    intro out seen stack h
    cases stack with
    | nil => simp [grmLoopF]
    | cons x stack =>
      rw [List.length_cons] at h
      unfold grmLoopF
      by_cases hs : x ∈ seen
      · rw [if_pos hs]
        exact ih out seen stack (by omega)
      · rw [if_neg hs]
        cases hl : lookup t x with
        | none =>
          apply ih
          have hle := unseenCount_cons_le (keysOf t) seen x
          have hmul : (t.length + 1) * unseenCount (keysOf t) (x :: seen) ≤
              (t.length + 1) * unseenCount (keysOf t) seen :=
            Nat.mul_le_mul_left _ hle
          omega
        | some node =>
          apply ih
          have hxk : x ∈ keysOf t := lookup_isSome_iff.mp (by simp [hl])
          have hlt := unseenCount_cons_lt (keysOf t) seen x hxk hs
          have hmul : (t.length + 1) * unseenCount (keysOf t) (x :: seen) + (t.length + 1) ≤
              (t.length + 1) * unseenCount (keysOf t) seen := by
            have h1 : unseenCount (keysOf t) (x :: seen) + 1 ≤ unseenCount (keysOf t) seen := hlt
            calc (t.length + 1) * unseenCount (keysOf t) (x :: seen) + (t.length + 1)
                = (t.length + 1) * (unseenCount (keysOf t) (x :: seen) + 1) := by ring
              _ ≤ (t.length + 1) * unseenCount (keysOf t) seen := Nat.mul_le_mul_left _ h1
          have hchl : ((childIndex t x).reverse ++ stack).length ≤ t.length + stack.length := by
            rw [List.length_append, List.length_reverse]
            have := childIndex_length_le t x
            omega
          omega

/-- The `getRootMapping` stack walk always finishes within the
`stackBound` fuel, on any table. -/
theorem getRootMappingF_isSome (t : Table) (root : String) :
    (getRootMappingF t (stackBound t) root).isSome := by
  unfold getRootMappingF
  cases hl : lookup t root with
  | none => simp
  | some n =>
    apply grmLoopF_isSome
    have h1 : unseenCount (keysOf t) [] ≤ t.length := by
      have := unseenCount_le_length (keysOf t) []
      have hlen : (keysOf t).length = t.length := by unfold keysOf; simp
      omega
    have h2 : (t.length + 1) * unseenCount (keysOf t) [] ≤ (t.length + 1) * t.length :=
      Nat.mul_le_mul_left _ h1
    have h3 : (t.length + 1) * t.length + 2 ≤ stackBound t := by
      unfold stackBound; nlinarith
    have h4 : ([root] : List String).length = 1 := rfl
    omega

theorem getChildren_length_le (t : Table) (x : String) :
    (getChildren t x).length ≤ t.length := by
  unfold getChildren
  calc (List.filter _ (tvalues t)).length ≤ (tvalues t).length :=
        (List.filter_sublist _).length_le
    _ = t.length := tvalues_length t

theorem keysOf_length (t : Table) : (keysOf t).length = t.length := by
  unfold keysOf; simp

theorem length_setEntry_present {t : Table} {k : String} (v : Node)
    (h : lookup t k = some v') : True := trivial

theorem mkLoopF_isSome (rid : String) : ∀ (fuel : Nat) (draft : Table)
    (seen stack : List String),
    stack.length + (draft.length + 2) * unseenCount (keysOf draft) seen < fuel →
    (mkLoopF rid fuel draft seen stack).isSome := by
  intro fuel
  induction fuel with
  | zero => intro draft seen stack h; omega
  | succ fuel ih =>
    intro draft seen stack h
    cases stack with
    | nil => simp [mkLoopF]
    | cons x stack =>
      rw [List.length_cons] at h
      unfold mkLoopF
      by_cases hs : x ∈ seen
      · rw [if_pos hs]
        exact ih draft seen stack (by omega)
      · rw [if_neg hs]
        cases hl : lookup draft x with
        | none =>
          apply ih
          have hle := unseenCount_cons_le (keysOf draft) seen x
          have hmul : (draft.length + 2) * unseenCount (keysOf draft) (x :: seen) ≤
              (draft.length + 2) * unseenCount (keysOf draft) seen :=
            Nat.mul_le_mul_left _ hle
          omega
        | some cur =>
          simp only []
          have hpres : (lookup draft x).isSome := by simp [hl]
          have hkeq : keysOf (setEntry draft x { cur with root := rid }) = keysOf draft :=
            keysOf_setEntry_of_present _ hpres
          have hleq : (setEntry draft x { cur with root := rid }).length = draft.length :=
            length_setEntry_of_present _ hpres
          have hxk : x ∈ keysOf draft := lookup_isSome_iff.mp hpres
          have hlt := unseenCount_cons_lt (keysOf draft) seen x hxk hs
          have hmul : (draft.length + 2) * unseenCount (keysOf draft) (x :: seen) +
              (draft.length + 2) ≤ (draft.length + 2) * unseenCount (keysOf draft) seen := by
            have h1 : unseenCount (keysOf draft) (x :: seen) + 1 ≤
                unseenCount (keysOf draft) seen := hlt
            calc (draft.length + 2) * unseenCount (keysOf draft) (x :: seen) +
                  (draft.length + 2)
                = (draft.length + 2) * (unseenCount (keysOf draft) (x :: seen) + 1) := by ring
              _ ≤ (draft.length + 2) * unseenCount (keysOf draft) seen :=
                  Nat.mul_le_mul_left _ h1
          set d' := setEntry draft x { cur with root := rid } with hd'
          have hstl : ∀ s1 : List String, s1.length ≤ 1 + stack.length →
              (((getChildren d' x).map (·.id)).reverse ++ s1).length ≤
                draft.length + 1 + stack.length := by
            intro s1 hs1
            rw [List.length_append, List.length_reverse, List.length_map]
            have h2 : (getChildren d' x).length ≤ d'.length := getChildren_length_le d' x
            omega
          have hrec : ∀ s1 : List String, s1.length ≤ 1 + stack.length →
              (mkLoopF rid fuel d' (x :: seen) (((getChildren d' x).map (·.id)).reverse ++ s1)).isSome := by
            intro s1 hs1
            apply ih
            rw [hkeq, hleq]
            have := hstl s1 hs1
            omega
          cases hc : cur.child with
          | none => exact hrec stack (by omega)
          | some c =>
            simp only []
            by_cases hce : (c == "") = true
            · rw [if_pos hce]
              exact hrec stack (by omega)
            · rw [if_neg hce]
              exact hrec (c :: stack) (by rw [List.length_cons]; omega)

theorem keysOf_detachParent (d : Table) (id : String) (node : Node) :
    keysOf (detachParent d id node) = keysOf d := by
  unfold detachParent
  cases hp : node.parent with
  | none => rfl
  | some p =>
    simp only []
    by_cases hpe : (p == "") = true
    · rw [if_pos hpe]
    · rw [if_neg hpe]
      cases hl : lookup d p with
      | none => rfl
      | some pn =>
        simp only []
        by_cases hc : (pn.child == some id) = true
        · rw [if_pos hc]
          exact keysOf_setEntry_of_present _ (by simp [hl])
        · rw [if_neg hc]

theorem keysOf_detachActiveChild (d : Table) (id : String) (node : Node) :
    keysOf (detachActiveChild d id node) = keysOf d := by
  unfold detachActiveChild
  cases hp : node.child with
  | none => rfl
  | some ac =>
    simp only []
    by_cases hpe : (ac == "") = true
    · rw [if_pos hpe]
    · rw [if_neg hpe]
      cases hl : lookup d ac with
      | none => rfl
      | some an =>
        simp only []
        by_cases hc : (an.parent == some id) = true
        · rw [if_pos hc]
          exact keysOf_setEntry_of_present _ (by simp [hl])
        · rw [if_neg hc]

theorem keysOf_siblingRedirect (t : Table) (id : String) (node : Node) :
    keysOf (siblingRedirect t id node) = keysOf t := by
  unfold siblingRedirect
  cases hp : node.parent with
  | none => rfl
  | some p =>
    simp only []
    by_cases hpe : (p == "") = true
    · rw [if_pos hpe]
    · rw [if_neg hpe]
      cases hl : lookup t p with
      | none => rfl
      | some pn =>
        simp only []
        by_cases hc : (pn.child == some id) = true
        · rw [if_pos hc]
          exact keysOf_setEntry_of_present _ (by simp [hl])
        · rw [if_neg hc]

/-- Monotonicity of the recursive deletion: keys only disappear and the
visited set only grows. -/
theorem del_mono (fuel : Nat) :
    (∀ draft seen id d1 s1, delF fuel draft seen id = some (d1, s1) →
      (keysOf d1).Sublist (keysOf draft) ∧ seen ⊆ s1) ∧
    (∀ cs draft seen d1 s1, delsF fuel draft seen cs = some (d1, s1) →
      (keysOf d1).Sublist (keysOf draft) ∧ seen ⊆ s1) := by
  induction fuel with
  | zero =>
    constructor
    · intro draft seen id d1 s1 h
      simp [delF] at h
    · intro cs draft seen d1 s1 h
      cases cs with
      | nil =>
        unfold delsF at h
        obtain ⟨rfl, rfl⟩ : draft = d1 ∧ seen = s1 := by
          constructor <;> [exact congrArg Prod.fst (Option.some.inj h);
            exact congrArg Prod.snd (Option.some.inj h)]
        exact ⟨List.Sublist.refl _, fun a ha => ha⟩
      | cons c cs' =>
        unfold delsF at h
        simp [delF] at h
  | succ fuel ih =>
    have hdel : ∀ draft seen id d1 s1, delF (fuel + 1) draft seen id = some (d1, s1) →
        (keysOf d1).Sublist (keysOf draft) ∧ seen ⊆ s1 := by
      intro draft seen id d1 s1 h
      unfold delF at h
      cases hl : lookup draft id with
      | none =>
        rw [hl] at h
        obtain ⟨rfl, rfl⟩ : draft = d1 ∧ seen = s1 := by
          constructor <;> [exact congrArg Prod.fst (Option.some.inj h);
            exact congrArg Prod.snd (Option.some.inj h)]
        exact ⟨List.Sublist.refl _, fun a ha => ha⟩
      | some node =>
        simp only [hl] at h
        by_cases hs : id ∈ seen
        · rw [if_pos hs] at h
          obtain ⟨rfl, rfl⟩ : draft = d1 ∧ seen = s1 := by
            constructor <;> [exact congrArg Prod.fst (Option.some.inj h);
              exact congrArg Prod.snd (Option.some.inj h)]
          exact ⟨List.Sublist.refl _, fun a ha => ha⟩
        · rw [if_neg hs] at h
          cases hds : delsF fuel draft (id :: seen) ((getChildren draft id).map (·.id)) with
          | none => rw [hds] at h; cases h
          | some pair =>
            obtain ⟨da, sa⟩ := pair
            rw [hds] at h
            obtain ⟨hd1, hs1⟩ : eraseEntry (detachActiveChild (detachParent da id node) id node)
                id = d1 ∧ sa = s1 := by
              constructor <;> [exact congrArg Prod.fst (Option.some.inj h);
                exact congrArg Prod.snd (Option.some.inj h)]
            obtain ⟨hsub, hsseen⟩ := ih.2 _ _ _ _ _ hds
            refine ⟨?_, fun a ha => hs1 ▸ hsseen (List.mem_cons_of_mem _ ha)⟩
            rw [← hd1]
            calc keysOf (eraseEntry (detachActiveChild (detachParent da id node) id node) id)
                = (keysOf (detachActiveChild (detachParent da id node) id node)).filter
                    (fun x => !(x == id)) := keysOf_eraseEntry _ _
              _ = (keysOf da).filter (fun x => !(x == id)) := by
                  rw [keysOf_detachActiveChild, keysOf_detachParent]
            exact (List.filter_sublist _).trans hsub
    refine ⟨hdel, ?_⟩
    intro cs
    induction cs with
    | nil =>
      intro draft seen d1 s1 h
      unfold delsF at h
      obtain ⟨rfl, rfl⟩ : draft = d1 ∧ seen = s1 := by
        constructor <;> [exact congrArg Prod.fst (Option.some.inj h);
          exact congrArg Prod.snd (Option.some.inj h)]
      exact ⟨List.Sublist.refl _, fun a ha => ha⟩
    | cons c cs' ihcs =>
      intro draft seen d1 s1 h
      unfold delsF at h
      cases hdf : delF (fuel + 1) draft seen c with
      | none => rw [hdf] at h; cases h
      | some pair =>
        obtain ⟨da, sa⟩ := pair
        rw [hdf] at h
        obtain ⟨h1sub, h1seen⟩ := hdel draft seen c da sa hdf
        obtain ⟨h2sub, h2seen⟩ := ihcs da sa d1 s1 h
        exact ⟨h2sub.trans h1sub, fun a ha => h2seen (h1seen ha)⟩

theorem unseenCount_sublist {l' l : List String} (h : l'.Sublist l) (s : List String) :
    unseenCount l' s ≤ unseenCount l s :=
  (h.filter _).length_le

theorem unseenCount_subset_le {s s' : List String} (l : List String) (h : s ⊆ s') :
    unseenCount l s' ≤ unseenCount l s := by
  apply filter_length_mono
  intro a ha
  simp only [decide_eq_true_eq] at ha ⊢
  exact fun hmem => ha (h hmem)

/-- The recursive deletion always completes: fuel exceeding the number of
not-yet-visited keys suffices. -/
theorem del_isSome (fuel : Nat) :
    (∀ draft seen id, unseenCount (keysOf draft) seen < fuel →
      (delF fuel draft seen id).isSome) ∧
    (∀ cs draft seen, unseenCount (keysOf draft) seen < fuel →
      (delsF fuel draft seen cs).isSome) := by
  induction fuel with
  | zero =>
    constructor
    · intro draft seen id h; omega
    · intro cs draft seen h; omega
  | succ fuel ih =>
    have hdel : ∀ draft seen id, unseenCount (keysOf draft) seen < fuel + 1 →
        (delF (fuel + 1) draft seen id).isSome := by
      intro draft seen id h
      unfold delF
      cases hl : lookup draft id with
      | none => simp
      | some node =>
        simp only []
        by_cases hs : id ∈ seen
        · simp [hs]
        · rw [if_neg hs]
          have hk : id ∈ keysOf draft := lookup_isSome_iff.mp (by simp [hl])
          have hlt := unseenCount_cons_lt (keysOf draft) seen id hk hs
          have hsome := ih.2 ((getChildren draft id).map (·.id)) draft (id :: seen) (by omega)
          cases hds : delsF fuel draft (id :: seen) ((getChildren draft id).map (·.id)) with
          | none => rw [hds] at hsome; simp at hsome
          | some pair =>
            obtain ⟨da, sa⟩ := pair
            simp
    refine ⟨hdel, ?_⟩
    intro cs
    induction cs with
    | nil =>
      intro draft seen h
      simp [delsF]
    | cons c cs' ihcs =>
      intro draft seen h
      unfold delsF
      cases hdf : delF (fuel + 1) draft seen c with
      | none =>
        have := hdel draft seen c h
        rw [hdf] at this
        simp at this
      | some pair =>
        obtain ⟨da, sa⟩ := pair
        simp only []
        obtain ⟨hsub, hseen⟩ := (del_mono (fuel + 1)).1 draft seen c da sa hdf
        have hle1 : unseenCount (keysOf da) sa ≤ unseenCount (keysOf draft) sa :=
          unseenCount_sublist hsub sa
        have hle2 : unseenCount (keysOf draft) sa ≤ unseenCount (keysOf draft) seen :=
          unseenCount_subset_le _ hseen
        exact ihcs da sa (by omega)

/-- The internal deletion call of `deleteNode` always finishes within its
`t.length + 2` fuel, on any table. -/
theorem deleteNode_internal_isSome (t : Table) (id : String) (node : Node)
    (h : lookup t id = some node) :
    (delF (t.length + 2) (siblingRedirect t id node) [] id).isSome := by
  apply (del_isSome (t.length + 2)).1
  rw [keysOf_siblingRedirect]
  have h1 := unseenCount_le_length (keysOf t) []
  rw [keysOf_length] at h1
  omega

/-! ### getRoot diverges on a parent cycle of existing nodes -/

/-- One node of the two-node parent cycle. -/
def nodeA : Node :=
  { id := "a", role := "user", content := "a", root := "a", parent := some "b" }

/-- The other node of the two-node parent cycle. -/
def nodeB : Node :=
  { id := "b", role := "user", content := "b", root := "b", parent := some "a" }

/-- A table whose two nodes form a parent-pointer cycle; both parents
exist in the table. -/
def cycleTable : Table := [("a", nodeA), ("b", nodeB)]

/-- The source `getRoot` loop on table `t` from `id` never finishes: at
every fuel the loop is still running. -/
def getRootDiverges (t : Table) (id : String) : Prop :=
  ∀ fuel, getRootF t fuel id = none

/-- C1 counterexample: on the two-node parent cycle of existing nodes,
the unguarded `getRoot` loop never terminates (every finite number of
iterations leaves it still running), even though both links resolve to
existing nodes — so not every traversal function terminates on cyclic
tables. -/
theorem getRoot_cycle_diverges :
    getRootDiverges cycleTable "a" ∧ hasNode cycleTable "a" ∧ hasNode cycleTable "b" := by
  refine ⟨?_, by decide, by decide⟩
  have key : ∀ fuel, getRootLoopF cycleTable fuel nodeA = none ∧
      getRootLoopF cycleTable fuel nodeB = none := by
    intro fuel
    induction fuel with
    | zero => exact ⟨rfl, rfl⟩
    | succ fuel ih =>
      constructor
      · have hstep : getRootLoopF cycleTable (fuel + 1) nodeA =
            getRootLoopF cycleTable fuel nodeB := rfl
        rw [hstep]; exact ih.2
      · have hstep : getRootLoopF cycleTable (fuel + 1) nodeB =
            getRootLoopF cycleTable fuel nodeA := rfl
        rw [hstep]; exact ih.1
  intro fuel
  unfold getRootF
  rw [show lookup cycleTable "a" = some nodeA from rfl]
  simp only []
  rw [(key fuel).1]
  rfl

/-- C1 amended: every visited-set-guarded loop of the engine terminates
on every table, cyclic or not, within a table-size-derived bound: the
`getConversation` and `getAncestry` chains, the `getRootMapping` and
`makeRoot` stack walks, and the recursive deletion of `deleteNode`.
(`getRoot` is the exception established separately, and `addNode` /
`branchNode` contain no loop of their own — they can only fail to
terminate by calling `getRoot` on a parent inside a parent cycle.) -/
theorem guarded_traversals_terminate (t : Table) :
    (∀ root, (getConversationF t (t.length + 1) root).isSome) ∧
    (∀ id, (getAncestryF t (t.length + 1) id).isSome) ∧
    (∀ root, (getRootMappingF t (stackBound t) root).isSome) ∧
    (∀ id node, lookup t id = some node →
      (delF (t.length + 2) (siblingRedirect t id node) [] id).isSome) ∧
    (∀ rid d1, d1.length = t.length → (mkLoopF rid (stackBound t) d1 [] [rid]).isSome) := by
  refine ⟨getConversationF_isSome t, getAncestryF_isSome t, getRootMappingF_isSome t,
    deleteNode_internal_isSome t, ?_⟩
  intro rid d1 hlen
  apply mkLoopF_isSome
  have h1 := unseenCount_le_length (keysOf d1) []
  rw [keysOf_length] at h1
  have h2 : (d1.length + 2) * unseenCount (keysOf d1) [] ≤ (d1.length + 2) * d1.length :=
    Nat.mul_le_mul_left _ h1
  have h3 : (d1.length + 2) * d1.length + 2 ≤ stackBound t := by
    unfold stackBound
    rw [hlen]
    nlinarith
  have h4 : ([rid] : List String).length = 1 := rfl
  omega

/-- C1 witness: all five guarded loops complete on the concrete example
table. -/
theorem guarded_traversals_terminate_witness :
    (getConversationF exLinearTable (exLinearTable.length + 1) "root").isSome ∧
    (getAncestryF exLinearTable (exLinearTable.length + 1) "c").isSome ∧
    (getRootMappingF exLinearTable (stackBound exLinearTable) "root").isSome ∧
    (delF (exLinearTable.length + 2)
      (siblingRedirect exLinearTable "b" (exNode "b" (some "a") (some "c"))) [] "b").isSome ∧
    (mkLoopF "b" (stackBound exLinearTable) exLinearTable [] ["b"]).isSome := by
  obtain ⟨h1, h2, h3, h4, h5⟩ := guarded_traversals_terminate exLinearTable
  exact ⟨h1 "root", h2 "c", h3 "root", h4 "b" (exNode "b" (some "a") (some "c")) (by decide),
    h5 "b" exLinearTable rfl⟩

/-! ### makeRoot: the root-stamping walk visits exactly the descendants -/

/-- The successor ids the `makeRoot` walk pushes from a found node: its
truthy active-child pointer and the ids of all nodes claiming it as
parent.  A missing id has no successors. -/
def succOf (d : Table) (x : String) : List String :=
  match lookup d x with
  | none => []
  | some n =>
    (match n.child with
     | some c => if c = "" then [] else [c]
     | none => []) ++ (getChildren d x).map (·.id)

/-- Reachability along `succOf` edges. -/
inductive ReachFrom (d : Table) : String → String → Prop where
  | refl (x : String) : ReachFrom d x x
  | tail {x y z : String} : ReachFrom d x y → z ∈ succOf d y → ReachFrom d x z

theorem ReachFrom.trans {d : Table} {x y z : String} (h1 : ReachFrom d x y)
    (h2 : ReachFrom d y z) : ReachFrom d x z := by
  induction h2 with
  | refl => exact h1
  | tail _ hz ih => exact ReachFrom.tail ih hz

theorem ReachFrom.single {d : Table} {x z : String} (h : z ∈ succOf d x) :
    ReachFrom d x z :=
  ReachFrom.tail (ReachFrom.refl x) h

/-- Stamp `root := rid` on every entry whose key is in `S`. -/
def stampAll (rid : String) (S : List String) (d : Table) : Table :=
  d.map (fun e => if e.1 ∈ S then (e.1, { e.2 with root := rid }) else e)

theorem stampAll_nil (rid : String) (d : Table) : stampAll rid [] d = d := by
  unfold stampAll
  simp

theorem lookup_stampAll (rid : String) (S : List String) (d : Table) (k : String) :
    lookup (stampAll rid S d) k =
      (lookup d k).map (fun n => if k ∈ S then { n with root := rid } else n) := by
  induction d with
  | nil => simp [stampAll, lookup_nil]
  | cons hd tl ih =>
    unfold stampAll at ih ⊢
    rw [List.map_cons]
    by_cases hm : hd.1 ∈ S
    · rw [if_pos hm, lookup_cons, lookup_cons]
      by_cases hk : hd.1 = k
      · rw [if_pos hk, if_pos hk]
        simp [← hk, hm]
      · rw [if_neg hk, if_neg hk, ih]
    · rw [if_neg hm, lookup_cons, lookup_cons]
      by_cases hk : hd.1 = k
      · rw [if_pos hk, if_pos hk]
        simp [← hk, hm]
      · rw [if_neg hk, if_neg hk, ih]

theorem keysOf_stampAll (rid : String) (S : List String) (d : Table) :
    keysOf (stampAll rid S d) = keysOf d := by
  unfold stampAll keysOf
  rw [List.map_map]
  exact List.map_congr_left fun e _ => by by_cases hm : e.1 ∈ S <;> simp [hm]

theorem length_stampAll (rid : String) (S : List String) (d : Table) :
    (stampAll rid S d).length = d.length := by
  unfold stampAll; simp

theorem stampAll_not_key (rid : String) (S : List String) (d : Table) (x : String)
    (hx : lookup d x = none) : stampAll rid (x :: S) d = stampAll rid S d := by
  unfold stampAll
  exact List.map_congr_left fun e he => by
    have : e.1 ≠ x := lookup_eq_none_forall hx e he
    by_cases hm : e.1 ∈ S
    · simp [hm, List.mem_cons, this]
    · simp [hm, List.mem_cons, this]

theorem setEntry_stampAll (rid : String) (S : List String) (d : Table) (x : String)
    {n : Node} (hnd : (keysOf d).Nodup) (hx : lookup d x = some n) :
    setEntry (stampAll rid S d) x { n with root := rid } = stampAll rid (x :: S) d := by
  rw [setEntry_of_present _ (by rw [lookup_stampAll, hx]; simp)]
  unfold stampAll
  rw [List.map_map]
  refine List.map_congr_left fun e he => ?_
  obtain ⟨ek, ev⟩ := e
  by_cases hk : ek = x
  · have hen : ev = n := by
      have hl := lookup_of_mem_nodup hnd he
      simp only at hl
      rw [hk, hx] at hl
      exact (Option.some.inj hl).symm
    subst hk
    subst hen
    by_cases hm : ek ∈ S
    · simp [Function.comp, hm, List.mem_cons]
    · simp [Function.comp, hm, List.mem_cons]
  · by_cases hm : ek ∈ S
    · simp [Function.comp, hm, hk, List.mem_cons]
    · simp [Function.comp, hm, hk, List.mem_cons]

theorem childIds_stampAll (rid : String) (S : List String) (d : Table) (x : String) :
    (getChildren (stampAll rid S d) x).map (·.id) = (getChildren d x).map (·.id) := by
  unfold getChildren tvalues stampAll
  induction d with
  | nil => rfl
  | cons e tl ih =>
    simp only [List.map_cons]
    by_cases hm : e.1 ∈ S
    · rw [if_pos hm]
      simp only [List.filter_cons]
      by_cases hp : (e.2.parent == some x) = true
      · rw [if_pos (by simpa using hp), if_pos hp]
        simp only [List.map_cons, ih]
      · rw [if_neg (by simpa using hp), if_neg hp]
        exact ih
    · rw [if_neg hm]
      simp only [List.filter_cons]
      by_cases hp : (e.2.parent == some x) = true
      · rw [if_pos hp, if_pos hp]
        simp only [List.map_cons, ih]
      · rw [if_neg hp, if_neg hp]
        exact ih

/-- Membership in the ids the walk pushes from node `n` at `x`
equals membership in `succOf` plus the old stack. -/
theorem mk_push_mem (d1 : Table) (x : String) {n : Node} (hx : lookup d1 x = some n)
    (stack : List String) (y : String) :
    (y ∈ ((getChildren d1 x).map (·.id)).reverse ++
        (match n.child with
         | some c => if c == "" then stack else c :: stack
         | none => stack)) ↔ y ∈ succOf d1 x ∨ y ∈ stack := by
  unfold succOf
  rw [hx]
  cases hc : n.child with
  | none => simp [hc]
  | some c =>
    by_cases hce : c = ""
    · simp [hce, hc]
    · simp only [hc, if_neg hce, if_neg (show ¬(c == "") = true by simpa using hce)]
      generalize ((getChildren d1 x).map (·.id)) = L
      simp [List.mem_append, List.mem_reverse, List.mem_cons]
      tauto

/-- Characterization of the `makeRoot` stack walk: starting from draft
`stampAll rid seen d1` with the invariant that every seen node's
successors are seen or on the stack, a successful walk returns
`stampAll rid V d1` for a visited set `V` that extends `seen` and the
stack, contains only stack-reachable nodes beyond `seen`, and is closed
under successors. -/
theorem mkLoopF_spec (rid : String) (d1 : Table) (hnd : (keysOf d1).Nodup) :
    ∀ (fuel : Nat) (seen stack : List String) (d' : Table),
    mkLoopF rid fuel (stampAll rid seen d1) seen stack = some d' →
    (∀ x ∈ seen, ∀ y ∈ succOf d1 x, y ∈ seen ∨ y ∈ stack) →
    ∃ V : List String, d' = stampAll rid V d1 ∧ seen ⊆ V ∧
      (∀ s ∈ stack, s ∈ V) ∧
      (∀ k ∈ V, k ∈ seen ∨ ∃ s ∈ stack, ReachFrom d1 s k) ∧
      (∀ x ∈ V, ∀ y ∈ succOf d1 x, y ∈ V) := by
  intro fuel
  induction fuel with
  | zero => intro seen stack d' h _; simp [mkLoopF] at h
  | succ fuel ih =>
    intro seen stack d' h hcl
    cases stack with
    | nil =>
      unfold mkLoopF at h
      obtain rfl : stampAll rid seen d1 = d' := Option.some.inj h
      refine ⟨seen, rfl, fun a ha => ha, by simp, fun k hk => Or.inl hk, ?_⟩
      intro x hx y hy
      rcases hcl x hx y hy with h1 | h2
      · exact h1
      · simp at h2
    | cons x stack =>
      unfold mkLoopF at h
      by_cases hs : x ∈ seen
      · rw [if_pos hs] at h
        have hcl' : ∀ x' ∈ seen, ∀ y ∈ succOf d1 x', y ∈ seen ∨ y ∈ stack := by
          intro x' hx' y hy
          rcases hcl x' hx' y hy with h1 | h2
          · exact Or.inl h1
          · rcases List.mem_cons.mp h2 with rfl | h3
            · exact Or.inl hs
            · exact Or.inr h3
        obtain ⟨V, hV, hseenV, hstackV, hreach, hclosed⟩ := ih seen stack d' h hcl'
        refine ⟨V, hV, hseenV, ?_, ?_, hclosed⟩
        · intro s hsm
          rcases List.mem_cons.mp hsm with rfl | h2
          · exact hseenV hs
          · exact hstackV s h2
        · intro k hk
          rcases hreach k hk with h1 | ⟨s, hsm, hr⟩
          · exact Or.inl h1
          · exact Or.inr ⟨s, List.mem_cons_of_mem _ hsm, hr⟩
      · rw [if_neg hs] at h
        cases hl : lookup (stampAll rid seen d1) x with
        | none =>
          simp only [hl] at h
          have hl1 : lookup d1 x = none := by
            rw [lookup_stampAll] at hl
            cases hx : lookup d1 x with
            | none => rfl
            | some n => rw [hx] at hl; simp at hl
          have hsucc0 : succOf d1 x = [] := by unfold succOf; rw [hl1]
          rw [← stampAll_not_key rid seen d1 x hl1] at h
          have hcl' : ∀ x' ∈ x :: seen, ∀ y ∈ succOf d1 x', y ∈ x :: seen ∨ y ∈ stack := by
            intro x' hx' y hy
            rcases List.mem_cons.mp hx' with rfl | h2
            · rw [hsucc0] at hy; simp at hy
            · rcases hcl x' h2 y hy with h1 | h3
              · exact Or.inl (List.mem_cons_of_mem _ h1)
              · rcases List.mem_cons.mp h3 with rfl | h4
                · exact Or.inl (List.mem_cons_self _ _)
                · exact Or.inr h4
          obtain ⟨V, hV, hseenV, hstackV, hreach, hclosed⟩ := ih (x :: seen) stack d' h hcl'
          refine ⟨V, hV, fun a ha => hseenV (List.mem_cons_of_mem _ ha), ?_, ?_, hclosed⟩
          · intro s hsm
            rcases List.mem_cons.mp hsm with rfl | h2
            · exact hseenV (List.mem_cons_self _ _)
            · exact hstackV s h2
          · intro k hk
            rcases hreach k hk with h1 | ⟨s, hsm, hr⟩
            · rcases List.mem_cons.mp h1 with rfl | h2
              · exact Or.inr ⟨k, List.mem_cons_self _ _, ReachFrom.refl k⟩
              · exact Or.inl h2
            · exact Or.inr ⟨s, List.mem_cons_of_mem _ hsm, hr⟩
        | some cur =>
          obtain ⟨n, hn, rfl⟩ : ∃ n, lookup d1 x = some n ∧ cur = n := by
            rw [lookup_stampAll] at hl
            cases hx : lookup d1 x with
            | none => rw [hx] at hl; exact Option.noConfusion hl
            | some n =>
              rw [hx] at hl
              have hl2 : some (if x ∈ seen then { n with root := rid } else n) = some cur := hl
              rw [if_neg hs] at hl2
              exact ⟨n, rfl, (Option.some.inj hl2).symm⟩
          simp only [hl] at h
          rw [setEntry_stampAll rid seen d1 x hnd hn] at h
          rw [childIds_stampAll rid (x :: seen) d1 x] at h
          obtain ⟨STK, hrun, hSTKmem⟩ :
              ∃ STK, mkLoopF rid fuel (stampAll rid (x :: seen) d1) (x :: seen) STK = some d' ∧
                ∀ y, y ∈ STK ↔ (y ∈ succOf d1 x ∨ y ∈ stack) :=
            ⟨_, h, fun y => mk_push_mem d1 x hn stack y⟩
          have hcl' : ∀ x' ∈ x :: seen, ∀ y ∈ succOf d1 x', y ∈ x :: seen ∨ y ∈ STK := by
            intro x' hx' y hy
            rcases List.mem_cons.mp hx' with rfl | h2
            · exact Or.inr ((hSTKmem y).mpr (Or.inl hy))
            · rcases hcl x' h2 y hy with h1 | h3
              · exact Or.inl (List.mem_cons_of_mem _ h1)
              · rcases List.mem_cons.mp h3 with rfl | h4
                · exact Or.inl (List.mem_cons_self _ _)
                · exact Or.inr ((hSTKmem y).mpr (Or.inr h4))
          obtain ⟨V, hV, hseenV, hstackV, hreach, hclosed⟩ := ih (x :: seen) STK d' hrun hcl'
          refine ⟨V, hV, fun a ha => hseenV (List.mem_cons_of_mem _ ha), ?_, ?_, hclosed⟩
          · intro s hsm
            rcases List.mem_cons.mp hsm with rfl | h2
            · exact hseenV (List.mem_cons_self _ _)
            · exact hstackV s ((hSTKmem s).mpr (Or.inr h2))
          · intro k hk
            rcases hreach k hk with h1 | ⟨s, hsm, hr⟩
            · rcases List.mem_cons.mp h1 with rfl | h2
              · exact Or.inr ⟨k, List.mem_cons_self _ _, ReachFrom.refl k⟩
              · exact Or.inl h2
            · rcases (hSTKmem s).mp hsm with hsucc | hstk
              · exact Or.inr ⟨x, List.mem_cons_self _ _,
                  (ReachFrom.single hsucc).trans hr⟩
              · exact Or.inr ⟨s, List.mem_cons_of_mem _ hstk, hr⟩

theorem lookup_detachParent_ne (d : Table) (id : String) (node : Node) (k : String)
    (hk : node.parent ≠ some k) : lookup (detachParent d id node) k = lookup d k := by
  unfold detachParent
  cases hp : node.parent with
  | none => rfl
  | some p =>
    simp only []
    by_cases hpe : (p == "") = true
    · rw [if_pos hpe]
    · rw [if_neg hpe]
      cases hl : lookup d p with
      | none => rfl
      | some pn =>
        simp only []
        by_cases hc : (pn.child == some id) = true
        · rw [if_pos hc]
          refine lookup_setEntry_other _ (by simp [hl]) ?_
          intro hcon
          exact hk (hcon ▸ hp)
        · rw [if_neg hc]

theorem lookup_detachParent_p (d : Table) (id : String) (node : Node) {p : String}
    {pn : Node} (hp : node.parent = some p) (hpe : p ≠ "") (hl : lookup d p = some pn) :
    lookup (detachParent d id node) p =
      some (if pn.child = some id then { pn with child := none } else pn) := by
  unfold detachParent
  rw [hp]
  simp only []
  rw [if_neg (by simpa using hpe), hl]
  simp only []
  by_cases hc : pn.child = some id
  · rw [if_pos (by simpa using hc), if_pos hc]
    exact lookup_setEntry_self _ (by simp [hl])
  · rw [if_neg (by simpa using hc), if_neg hc, hl]

theorem node_eta_parent {n : Node} (h : n.parent = none) : ({ n with parent := none } : Node) = n := by
  obtain ⟨i, r, c, ro, pa, ch, m⟩ := n
  simp only at h
  subst h
  rfl

/-- The detach phase leaves the node itself with its parent cleared and
everything else unchanged (given the node is not simultaneously its own
parent and its own active child). -/
theorem lookup_mkDetach_id {t : Table} {id : String} {node : Node} (hwf : WellFormed t)
    (hid : lookup t id = some node)
    (hdeg : ¬(node.parent = some id ∧ node.child = some id)) :
    lookup (mkDetach t id node) id = some { node with parent := none } := by
  unfold mkDetach
  cases hp : node.parent with
  | none => rw [hid, node_eta_parent hp]
  | some p =>
    simp only []
    have hpe : p ≠ "" := by
      intro hcon
      exact ((hwf.2.2 _ (lookup_mem hid)).1) (hcon ▸ hp)
    rw [if_neg (by simpa using hpe)]
    by_cases hpid : p = id
    · subst hpid
      have hcne : node.child ≠ some p := fun hc => hdeg ⟨hp, hc⟩
      have hda : lookup (detachParent t p node) p = some node := by
        rw [lookup_detachParent_p t p node hp hpe hid, if_neg hcne]
      rw [hda]
      simp only []
      exact lookup_setEntry_self _ (by simp [hda])
    · have hda : lookup (detachParent t id node) id = lookup t id :=
        lookup_detachParent_ne t id node id (by rw [hp]; simpa using fun h => hpid h)
      rw [hda, hid]
      simp only []
      exact lookup_setEntry_self _ (by simp [hda, hid])

theorem lookup_mkDetach_parent {t : Table} {id : String} {node : Node} {p : String}
    {pn : Node} (hwf : WellFormed t) (hid : lookup t id = some node)
    (hp : node.parent = some p) (hpid : p ≠ id) (hl : lookup t p = some pn) :
    lookup (mkDetach t id node) p =
      some (if pn.child = some id then { pn with child := none } else pn) := by
  unfold mkDetach
  rw [hp]
  simp only []
  have hpe : p ≠ "" := key_ne_empty hwf hl
  rw [if_neg (by simpa using hpe)]
  have hda := lookup_detachParent_p t id node hp hpe hl
  have hdaid : lookup (detachParent t id node) id = lookup t id :=
    lookup_detachParent_ne t id node id (by rw [hp]; simpa using fun h => hpid h)
  rw [hdaid, hid]
  simp only []
  rw [lookup_setEntry_other _ (by simp [hdaid, hid]) (Ne.symm hpid)]
  exact hda

theorem lookup_mkDetach_other {t : Table} {id : String} {node : Node} {k : String}
    (hk : k ≠ id) (hnp : node.parent ≠ some k) :
    lookup (mkDetach t id node) k = lookup t k := by
  unfold mkDetach
  cases hp : node.parent with
  | none => rfl
  | some p =>
    simp only []
    by_cases hpe : (p == "") = true
    · rw [if_pos hpe]
    · rw [if_neg hpe]
      have hda : lookup (detachParent t id node) k = lookup t k :=
        lookup_detachParent_ne t id node k (hp ▸ hnp)
      cases hdaid : lookup (detachParent t id node) id with
      | none => exact hda
      | some nd =>
        rw [lookup_setEntry_other _ (by simp [hdaid]) (Ne.symm hk)]
        exact hda

theorem keysOf_mkDetach (t : Table) (id : String) (node : Node) :
    keysOf (mkDetach t id node) = keysOf t := by
  unfold mkDetach
  cases hp : node.parent with
  | none => rfl
  | some p =>
    simp only []
    by_cases hpe : (p == "") = true
    · rw [if_pos hpe]
    · rw [if_neg hpe]
      cases hdaid : lookup (detachParent t id node) id with
      | none => exact keysOf_detachParent t id node
      | some nd =>
        rw [keysOf_setEntry_of_present _ (by simp [hdaid])]
        exact keysOf_detachParent t id node

/-- Well-formedness is preserved by modifications that keep keys and ids
and only clear (never set) pointer fields. -/
theorem wf_of_pointwise {t d' : Table} (hwf : WellFormed t)
    (hkeys : keysOf d' = keysOf t)
    (hchar : ∀ k n', lookup d' k = some n' → ∃ n, lookup t k = some n ∧ n'.id = n.id ∧
      (n'.parent = n.parent ∨ n'.parent = none) ∧ (n'.child = n.child ∨ n'.child = none)) :
    WellFormed d' := by
  have hnd' : (keysOf d').Nodup := hkeys ▸ hwf.2.1
  refine ⟨?_, hnd', ?_⟩
  · intro e he
    have hl := lookup_of_mem_nodup hnd' he
    obtain ⟨n, hn, hid, -, -⟩ := hchar e.1 e.2 hl
    exact ⟨by rw [hid]; exact (id_of_lookup_wf hwf hn).symm, (hwf.1 _ (lookup_mem hn)).2⟩
  · intro e he
    have hl := lookup_of_mem_nodup hnd' he
    obtain ⟨n, hn, -, hpar, hch⟩ := hchar e.1 e.2 hl
    have horig := hwf.2.2 _ (lookup_mem hn)
    constructor
    · rcases hpar with h | h
      · rw [h]; exact horig.1
      · rw [h]; simp
    · rcases hch with h | h
      · rw [h]; exact horig.2
      · rw [h]; simp

/-- Full characterization of every lookup in the detach phase. -/
theorem lookup_mkDetach_cases {t : Table} {id : String} {node : Node} (hwf : WellFormed t)
    (hid : lookup t id = some node)
    (hdeg : ¬(node.parent = some id ∧ node.child = some id)) (k : String) {n' : Node}
    (h : lookup (mkDetach t id node) k = some n') :
    (k = id ∧ n' = { node with parent := none }) ∨
    (k ≠ id ∧ node.parent = some k ∧ ∃ pn, lookup t k = some pn ∧
      n' = (if pn.child = some id then { pn with child := none } else pn)) ∨
    (k ≠ id ∧ node.parent ≠ some k ∧ lookup t k = some n') := by
  by_cases hk : k = id
  · subst hk
    rw [lookup_mkDetach_id hwf hid hdeg] at h
    exact Or.inl ⟨rfl, (Option.some.inj h).symm⟩
  · by_cases hnp : node.parent = some k
    · have hks : (lookup t k).isSome := by
        rw [lookup_isSome_iff, ← keysOf_mkDetach t id node, ← lookup_isSome_iff]
        simp [h]
      obtain ⟨pn, hpn⟩ := Option.isSome_iff_exists.mp hks
      rw [lookup_mkDetach_parent hwf hid hnp hk hpn] at h
      exact Or.inr (Or.inl ⟨hk, hnp, pn, hpn, (Option.some.inj h).symm⟩)
    · rw [lookup_mkDetach_other hk hnp] at h
      exact Or.inr (Or.inr ⟨hk, hnp, h⟩)

theorem wf_mkDetach {t : Table} {id : String} {node : Node} (hwf : WellFormed t)
    (hid : lookup t id = some node)
    (hdeg : ¬(node.parent = some id ∧ node.child = some id)) :
    WellFormed (mkDetach t id node) := by
  refine wf_of_pointwise hwf (keysOf_mkDetach t id node) ?_
  intro k n' h
  rcases lookup_mkDetach_cases hwf hid hdeg k h with ⟨rfl, rfl⟩ | ⟨-, -, pn, hpn, rfl⟩ |
    ⟨-, -, hl⟩
  · exact ⟨node, hid, rfl, Or.inr rfl, Or.inl rfl⟩
  · by_cases hc : pn.child = some id
    · exact ⟨pn, hpn, by simp [hc], Or.inl (by simp [hc]), Or.inr (by simp [hc])⟩
    · exact ⟨pn, hpn, by simp [hc], Or.inl (by simp [hc]), Or.inl (by simp [hc])⟩
  · exact ⟨n', hl, rfl, Or.inl rfl, Or.inl rfl⟩

/-- Membership in `succOf` in a well-formed table: the found node's truthy
child pointer, or a node claiming `x` as parent. -/
theorem mem_succOf_iff {d : Table} (hwf : WellFormed d) (x y : String) :
    y ∈ succOf d x ↔ ∃ n, lookup d x = some n ∧
      ((n.child = some y ∧ y ≠ "") ∨ ∃ m, lookup d y = some m ∧ m.parent = some x) := by
  unfold succOf
  cases hl : lookup d x with
  | none => simp
  | some n =>
    simp only [List.mem_append]
    constructor
    · rintro (h1 | h2)
      · refine ⟨n, rfl, Or.inl ?_⟩
        cases hc : n.child with
        | none => simp only [hc] at h1; simp at h1
        | some c =>
          simp only [hc] at h1
          by_cases hce : c = ""
          · rw [if_pos hce] at h1; simp at h1
          · rw [if_neg hce] at h1
            obtain rfl : y = c := by simpa using h1
            exact ⟨rfl, hce⟩
      · obtain ⟨m, hm, rfl⟩ := List.mem_map.mp h2
        have hmem : m ∈ tvalues d := List.mem_of_mem_filter hm
        have hmp : m.parent = some x := by simpa using List.of_mem_filter hm
        exact ⟨n, rfl, Or.inr ⟨m, lookup_id_of_mem_wf hwf hmem, hmp⟩⟩
    · rintro ⟨n', hn', hcase⟩
      obtain rfl : n' = n := (Option.some.inj hn').symm
      rcases hcase with ⟨hc, hy⟩ | ⟨m, hmy, hmp⟩
      · refine Or.inl ?_
        simp only [hc, if_neg hy]
        simp
      · refine Or.inr ?_
        have hmem : m ∈ tvalues d := mem_tvalues_of_lookup hmy
        have hmid : m.id = y := id_of_lookup_wf hwf hmy
        refine List.mem_map.mpr ⟨m, ?_, hmid⟩
        unfold getChildren
        exact List.mem_filter.mpr ⟨hmem, by simp [hmp]⟩

theorem succ_mkDetach_sub {t : Table} {id : String} {node : Node} (hwf : WellFormed t)
    (hid : lookup t id = some node)
    (hdeg : ¬(node.parent = some id ∧ node.child = some id)) (x y : String)
    (h : y ∈ succOf (mkDetach t id node) x) : y ∈ succOf t x := by
  have hwf' := wf_mkDetach hwf hid hdeg
  rw [mem_succOf_iff hwf'] at h
  rw [mem_succOf_iff hwf]
  obtain ⟨n', hn', hcase⟩ := h
  have hch : ∀ (yy xx : String) (m : Node), lookup (mkDetach t id node) yy = some m →
      m.parent = some xx → ∃ m0, lookup t yy = some m0 ∧ m0.parent = some xx := by
    intro yy xx m hmy hmp
    rcases lookup_mkDetach_cases hwf hid hdeg yy hmy with ⟨rfl, rfl⟩ | ⟨-, -, qn, hqn, rfl⟩ |
      ⟨-, -, hl2⟩
    · simp at hmp
    · refine ⟨qn, hqn, ?_⟩
      by_cases hcq : qn.child = some id
      · rw [if_pos hcq] at hmp; simpa using hmp
      · rw [if_neg hcq] at hmp; exact hmp
    · exact ⟨m, hl2, hmp⟩
  rcases lookup_mkDetach_cases hwf hid hdeg x hn' with ⟨rfl, rfl⟩ | ⟨hxid, hnp, pn, hpn, rfl⟩ |
    ⟨hxid, hnp, hl⟩
  · refine ⟨node, hid, ?_⟩
    rcases hcase with ⟨hc, hy⟩ | ⟨m, hmy, hmp⟩
    · exact Or.inl ⟨by simpa using hc, hy⟩
    · obtain ⟨m0, hm0, hm0p⟩ := hch y x m hmy hmp
      exact Or.inr ⟨m0, hm0, hm0p⟩
  · refine ⟨pn, hpn, ?_⟩
    rcases hcase with ⟨hc, hy⟩ | ⟨m, hmy, hmp⟩
    · by_cases hcq : pn.child = some id
      · rw [if_pos hcq] at hc; simp at hc
      · rw [if_neg hcq] at hc; exact Or.inl ⟨hc, hy⟩
    · obtain ⟨m0, hm0, hm0p⟩ := hch y x m hmy hmp
      exact Or.inr ⟨m0, hm0, hm0p⟩
  · refine ⟨n', hl, ?_⟩
    rcases hcase with ⟨hc, hy⟩ | ⟨m, hmy, hmp⟩
    · exact Or.inl ⟨hc, hy⟩
    · obtain ⟨m0, hm0, hm0p⟩ := hch y x m hmy hmp
      exact Or.inr ⟨m0, hm0, hm0p⟩

theorem succ_mkDetach_sup {t : Table} {id : String} {node : Node} (hwf : WellFormed t)
    (hid : lookup t id = some node)
    (hdeg : ¬(node.parent = some id ∧ node.child = some id)) (x y : String)
    (h : y ∈ succOf t x) : y ∈ succOf (mkDetach t id node) x ∨ y = id := by
  have hwf' := wf_mkDetach hwf hid hdeg
  by_cases hy : y = id
  · exact Or.inr hy
  refine Or.inl ?_
  rw [mem_succOf_iff hwf] at h
  rw [mem_succOf_iff hwf']
  obtain ⟨n, hn, hcase⟩ := h
  -- the found node survives in the detached table
  have hxs : ∃ n', lookup (mkDetach t id node) x = some n' ∧
      (n'.child = n.child ∨ (x ≠ id ∧ node.parent = some x ∧ n.child = some id ∧
        n'.child = none)) := by
    by_cases hxid : x = id
    · subst hxid
      obtain rfl : n = node := by rw [hid] at hn; exact (Option.some.inj hn).symm
      exact ⟨_, lookup_mkDetach_id hwf hid hdeg, Or.inl rfl⟩
    · by_cases hnp : node.parent = some x
      · refine ⟨_, lookup_mkDetach_parent hwf hid hnp hxid hn, ?_⟩
        by_cases hcq : n.child = some id
        · rw [if_pos hcq]
          exact Or.inr ⟨hxid, hnp, hcq, rfl⟩
        · rw [if_neg hcq]
          exact Or.inl rfl
      · exact ⟨n, by rw [lookup_mkDetach_other hxid hnp]; exact hn, Or.inl rfl⟩
  obtain ⟨n', hn', hn'c⟩ := hxs
  refine ⟨n', hn', ?_⟩
  rcases hcase with ⟨hc, hye⟩ | ⟨m, hmy, hmp⟩
  · refine Or.inl ⟨?_, hye⟩
    rcases hn'c with hsame | ⟨-, -, hcq, -⟩
    · rw [hsame, hc]
    · rw [hcq] at hc
      exact absurd (Option.some.inj hc).symm hy
  · refine Or.inr ?_
    by_cases hynp : node.parent = some y
    · refine ⟨_, lookup_mkDetach_parent hwf hid hynp hy hmy, ?_⟩
      by_cases hcq : m.child = some id
      · rw [if_pos hcq]
        simpa using hmp
      · rw [if_neg hcq]
        exact hmp
    · exact ⟨m, by rw [lookup_mkDetach_other hy hynp]; exact hmy, hmp⟩

theorem reach_mkDetach_iff {t : Table} {id : String} {node : Node} (hwf : WellFormed t)
    (hid : lookup t id = some node)
    (hdeg : ¬(node.parent = some id ∧ node.child = some id)) (k : String) :
    ReachFrom (mkDetach t id node) id k ↔ ReachFrom t id k := by
  constructor
  · intro h
    induction h with
    | refl => exact ReachFrom.refl _
    | tail _ hz ih => exact ReachFrom.tail ih (succ_mkDetach_sub hwf hid hdeg _ _ hz)
  · intro h
    induction h with
    | refl => exact ReachFrom.refl _
    | tail _ hz ih =>
      rcases succ_mkDetach_sup hwf hid hdeg _ _ hz with h1 | rfl
      · exact ReachFrom.tail ih h1
      · exact ReachFrom.refl _

theorem getChildren_stampAll_ids (rid : String) (S : List String) (d : Table) (x : String) :
    (getChildren (stampAll rid S d) x).map (fun n => n.id) =
      (getChildren d x).map (fun n => n.id) := by
  induction d with
  | nil => rfl
  | cons hd tl ih =>
    unfold getChildren tvalues stampAll at ih ⊢
    rw [List.map_cons]
    by_cases hm : hd.1 ∈ S
    · rw [if_pos hm, List.map_cons, List.map_cons, List.filter_cons, List.filter_cons]
      simp only []
      by_cases hp : (hd.2.parent == some x) = true
      · rw [if_pos (by simpa using hp), if_pos hp, List.map_cons, List.map_cons, ih]
      · rw [if_neg (by simpa using hp), if_neg hp]
        exact ih
    · rw [if_neg hm, List.map_cons, List.map_cons, List.filter_cons, List.filter_cons]
      simp only []
      by_cases hp : (hd.2.parent == some x) = true
      · rw [if_pos hp, if_pos hp, List.map_cons, List.map_cons, ih]
      · rw [if_neg hp, if_neg hp]
        exact ih

/-- Stamping `root` values changes no link structure: `succOf` is invariant. -/
theorem succOf_stampAll (rid : String) (S : List String) (d : Table) (x : String) :
    succOf (stampAll rid S d) x = succOf d x := by
  unfold succOf
  rw [lookup_stampAll]
  cases hl : lookup d x with
  | none => rfl
  | some n =>
    have hcoe : Option.map (fun n => if x ∈ S then { n with root := rid } else n)
        (some n) = some (if x ∈ S then { n with root := rid } else n) := rfl
    rw [hcoe]
    by_cases hm : x ∈ S
    · rw [if_pos hm]
      simp only []
      rw [getChildren_stampAll_ids]
    · rw [if_neg hm]
      simp only []
      rw [getChildren_stampAll_ids]

theorem reach_stampAll_iff (rid : String) (S : List String) (d : Table) (x k : String) :
    ReachFrom (stampAll rid S d) x k ↔ ReachFrom d x k := by
  constructor
  · intro h
    induction h with
    | refl => exact ReachFrom.refl _
    | tail _ hz ih =>
      rw [succOf_stampAll] at hz
      exact ReachFrom.tail ih hz
  · intro h
    induction h with
    | refl => exact ReachFrom.refl _
    | tail _ hz ih =>
      rw [← succOf_stampAll rid S] at hz
      exact ReachFrom.tail ih hz

/-- C4: re-rooting. For every well-formed table and node present in it that
is not simultaneously its own parent and its own active child, `makeRoot`
(1) stores the node with its parent cleared, its root set to its own id and
everything else (in particular its child pointer) unchanged; (2) preserves
the node's full descendant set (reachability through child pointers and
parent-back-edges is unchanged); (3) stores the former parent with its
active-child pointer cleared exactly when it pointed at the node, all other
links unchanged, and its root rewritten to the new id exactly when it lies
in the reachable set; and (4) stores every other node with all links and
payload unchanged and its root rewritten to the new id exactly when it lies
in the reachable set (so nodes outside that set keep their prior root). -/
theorem makeRoot_spec {t : Table} {id : String} {node : Node} (hwf : WellFormed t)
    (hid : lookup t id = some node)
    (hdeg : ¬(node.parent = some id ∧ node.child = some id)) :
    lookup (makeRoot t id) id = some { node with parent := none, root := id } ∧
    (∀ k, ReachFrom (makeRoot t id) id k ↔ ReachFrom t id k) ∧
    (∀ p pn, node.parent = some p → p ≠ id → lookup t p = some pn →
      ∃ pn', lookup (makeRoot t id) p = some pn' ∧
        pn'.child = (if pn.child = some id then none else pn.child) ∧
        pn'.parent = pn.parent ∧ pn'.id = pn.id ∧ pn'.role = pn.role ∧
        pn'.content = pn.content ∧ pn'.metadata = pn.metadata ∧
        (ReachFrom t id p → pn'.root = id) ∧
        (¬ ReachFrom t id p → pn'.root = pn.root)) ∧
    (∀ k n, lookup t k = some n → k ≠ id → node.parent ≠ some k →
      ∃ n', lookup (makeRoot t id) k = some n' ∧ n'.child = n.child ∧
        n'.parent = n.parent ∧ n'.id = n.id ∧ n'.role = n.role ∧
        n'.content = n.content ∧ n'.metadata = n.metadata ∧
        (ReachFrom t id k → n'.root = id) ∧
        (¬ ReachFrom t id k → n'.root = n.root)) := by
  have hwf' := wf_mkDetach hwf hid hdeg
  have hnd1 : (keysOf (mkDetach t id node)).Nodup := hwf'.2.1
  have hlen : (mkDetach t id node).length = t.length := by
    have h1 : (keysOf (mkDetach t id node)).length = (keysOf t).length := by
      rw [keysOf_mkDetach]
    rw [keysOf_length, keysOf_length] at h1
    exact h1
  have hterm : (mkLoopF id (stackBound t) (mkDetach t id node) [] [id]).isSome := by
    apply mkLoopF_isSome
    have hu : unseenCount (keysOf (mkDetach t id node)) [] =
        (mkDetach t id node).length := by
      unfold unseenCount
      simp [keysOf_length]
    rw [hu, hlen]
    unfold stackBound
    have h1 : ([id] : List String).length = 1 := rfl
    rw [h1]
    have h2 : (t.length + 2) * (t.length + 2) =
        (t.length + 2) * t.length + (t.length + 2) * 2 := by ring
    rw [h2]
    omega
  obtain ⟨d', hd'⟩ := Option.isSome_iff_exists.mp hterm
  obtain ⟨V, hdV, -, hstk, hmemV, hclosed⟩ :=
    mkLoopF_spec id (mkDetach t id node) hnd1 (stackBound t) [] [id] d'
      (by rw [stampAll_nil]; exact hd') (by intro y hy z hz; simp at hy)
  have hidV : id ∈ V := hstk id (by simp)
  have hViff : ∀ k, k ∈ V ↔ ReachFrom t id k := by
    intro k
    rw [← reach_mkDetach_iff hwf hid hdeg k]
    constructor
    · intro hk
      rcases hmemV k hk with h0 | ⟨s, hs, hr⟩
      · simp at h0
      · obtain rfl : s = id := by simpa using hs
        exact hr
    · intro hr
      induction hr with
      | refl => exact hidV
      | tail _ hz ih => exact hclosed _ ih _ hz
  have hmr : makeRoot t id = stampAll id V (mkDetach t id node) := by
    unfold makeRoot
    rw [hid]
    simp only []
    rw [hd', Option.getD_some]
    exact hdV
  refine ⟨?_, ?_, ?_, ?_⟩
  · rw [hmr, lookup_stampAll, lookup_mkDetach_id hwf hid hdeg]
    have hcoe : Option.map (fun n => if id ∈ V then { n with root := id } else n)
        (some { node with parent := none }) =
        some (if id ∈ V then { { node with parent := none } with root := id }
          else { node with parent := none }) := rfl
    rw [hcoe, if_pos hidV]
  · intro k
    rw [hmr, reach_stampAll_iff]
    exact reach_mkDetach_iff hwf hid hdeg k
  · intro p pn hp hpid hlp
    have hld1 := lookup_mkDetach_parent hwf hid hp hpid hlp
    by_cases hcq : pn.child = some id
    · rw [if_pos hcq] at hld1
      rw [hmr, lookup_stampAll, hld1]
      have hcoe : Option.map (fun n => if p ∈ V then { n with root := id } else n)
          (some { pn with child := none }) =
          some (if p ∈ V then { { pn with child := none } with root := id }
            else { pn with child := none }) := rfl
      rw [hcoe]
      by_cases hpV : p ∈ V
      · rw [if_pos hpV]
        exact ⟨_, rfl, by simp [hcq], rfl, rfl, rfl, rfl, rfl, fun _ => rfl,
          fun hnr => absurd ((hViff p).mp hpV) hnr⟩
      · rw [if_neg hpV]
        exact ⟨_, rfl, by simp [hcq], rfl, rfl, rfl, rfl, rfl,
          fun hr => absurd ((hViff p).mpr hr) hpV, fun _ => rfl⟩
    · rw [if_neg hcq] at hld1
      rw [hmr, lookup_stampAll, hld1]
      have hcoe : Option.map (fun n => if p ∈ V then { n with root := id } else n)
          (some pn) = some (if p ∈ V then { pn with root := id } else pn) := rfl
      rw [hcoe]
      by_cases hpV : p ∈ V
      · rw [if_pos hpV]
        exact ⟨_, rfl, by simp [hcq], rfl, rfl, rfl, rfl, rfl, fun _ => rfl,
          fun hnr => absurd ((hViff p).mp hpV) hnr⟩
      · rw [if_neg hpV]
        exact ⟨_, rfl, by simp [hcq], rfl, rfl, rfl, rfl, rfl,
          fun hr => absurd ((hViff p).mpr hr) hpV, fun _ => rfl⟩
  · intro k n hlk hkid hknp
    have hld1 : lookup (mkDetach t id node) k = some n := by
      rw [lookup_mkDetach_other hkid hknp]
      exact hlk
    rw [hmr, lookup_stampAll, hld1]
    have hcoe : Option.map (fun m => if k ∈ V then { m with root := id } else m)
        (some n) = some (if k ∈ V then { n with root := id } else n) := rfl
    rw [hcoe]
    by_cases hkV : k ∈ V
    · rw [if_pos hkV]
      exact ⟨_, rfl, rfl, rfl, rfl, rfl, rfl, rfl, fun _ => rfl,
        fun hnr => absurd ((hViff k).mp hkV) hnr⟩
    · rw [if_neg hkV]
      exact ⟨_, rfl, rfl, rfl, rfl, rfl, rfl, rfl,
        fun hr => absurd ((hViff k).mpr hr) hkV, fun _ => rfl⟩

/-- C4 witness: on the spec's own example `{root → a → b → c}`,
`makeRoot t "b"` stores `b` with `parent` cleared, `root = "b"`, and its
child pointer `some "c"` preserved. -/
theorem makeRoot_spec_witness :
    lookup (makeRoot exLinearTable "b") "b" =
      some { exNode "b" (some "a") (some "c") with parent := none, root := "b" } :=
  (@makeRoot_spec exLinearTable "b" (exNode "b" (some "a") (some "c"))
    (by decide) (by decide) (by decide)).1

/-- A well-formed one-node table whose node is its own parent and its own
active child. -/
def selfLoopTable : Table :=
  [("x", { id := "x", role := "user", content := "x", root := "x",
           parent := some "x", child := some "x", metadata := none })]

/-- C4 counterexample to the unrestricted claim: when the node is its own
parent and its own active child, the detach phase of `makeRoot` clears the
node's child pointer instead of preserving it — the node's child was
`some "x"` before and is `none` after, so `makeRoot` does not preserve the
child pointer of every present node. -/
theorem makeRoot_selfloop_clears_child :
    (lookup selfLoopTable "x").map (fun n => n.child) = some (some "x") ∧
    (lookup (makeRoot selfLoopTable "x") "x").map (fun n => n.child) = some none := by
  constructor
  · rfl
  · decide

/-! ### deleteNode: subtree reachability (C3) and parent redirection (C7) -/

/-- The claim's parent→children edge reachability: `x` is a child of `y`
when `x` is present in the table with `x.parent = y`; `EdgeReach t id k`
holds when `k` is `id` or transitively reachable from it through such
edges. -/
inductive EdgeReach (t : Table) (id : String) : String → Prop where
  | refl : EdgeReach t id id
  | step {y x : String} {n : Node} : EdgeReach t id y → lookup t x = some n →
      n.parent = some y → EdgeReach t id x

theorem edgeReach_trans {t : Table} {a b c : String} (h1 : EdgeReach t a b)
    (h2 : EdgeReach t b c) : EdgeReach t a c := by
  induction h2 with
  | refl => exact h1
  | step _ hl hp ih => exact EdgeReach.step ih hl hp

theorem edgeReach_mono {A B : Table} {id : String}
    (h : ∀ x n y, lookup A x = some n → n.parent = some y →
      ∃ m, lookup B x = some m ∧ m.parent = some y) :
    ∀ k, EdgeReach A id k → EdgeReach B id k := by
  intro k hk
  induction hk with
  | refl => exact EdgeReach.refl
  | step _ hl hp ih =>
    obtain ⟨m, hm, hmp⟩ := h _ _ _ hl hp
    exact EdgeReach.step ih hm hmp

/-- The key/id discipline preserved by the deletion recursion: every entry
is keyed by its node's id, and keys are unique. -/
def WfK (t : Table) : Prop := (∀ e ∈ t, e.1 = e.2.id) ∧ (keysOf t).Nodup

theorem wfK_of_wf {t : Table} (h : WellFormed t) : WfK t :=
  ⟨fun e he => (h.1 e he).1, h.2.1⟩

theorem id_of_lookup_wfK {t : Table} {k : String} {n : Node} (hw : WfK t)
    (h : lookup t k = some n) : n.id = k :=
  (hw.1 _ (lookup_mem h)).symm

theorem lookup_own_id {t : Table} {n : Node} (hw : WfK t) (hn : n ∈ tvalues t) :
    lookup t n.id = some n := by
  obtain ⟨e, he, heq⟩ := List.mem_map.mp hn
  have hk : e.1 = n.id := by rw [hw.1 e he, heq]
  have hl := lookup_of_mem_nodup hw.2 he
  rw [hk, heq] at hl
  exact hl

theorem mem_childIds {draft : Table} {x y : String} {n : Node} (hw : WfK draft)
    (hl : lookup draft y = some n) (hp : n.parent = some x) :
    y ∈ (getChildren draft x).map (fun m => m.id) := by
  have hn : n ∈ tvalues draft := mem_tvalues_of_lookup hl
  have hid : n.id = y := id_of_lookup_wfK hw hl
  refine List.mem_map.mpr ⟨n, ?_, hid⟩
  unfold getChildren
  refine List.mem_filter.mpr ⟨hn, ?_⟩
  simp [hp]

theorem childId_lookup {draft : Table} {x c : String} (hw : WfK draft)
    (hc : c ∈ (getChildren draft x).map (fun m => m.id)) :
    ∃ n, lookup draft c = some n ∧ n.parent = some x := by
  obtain ⟨n, hn, rfl⟩ := List.mem_map.mp hc
  unfold getChildren at hn
  obtain ⟨hmem, hfil⟩ := List.mem_filter.mp hn
  refine ⟨n, lookup_own_id hw hmem, ?_⟩
  simpa using hfil

theorem wfK_setEntry {t : Table} {k : String} {v : Node} (hw : WfK t) (hv : v.id = k)
    (hp : (lookup t k).isSome) : WfK (setEntry t k v) := by
  constructor
  · intro e he
    rw [setEntry_of_present v hp] at he
    obtain ⟨e0, he0, heq⟩ := List.mem_map.mp he
    by_cases hk : (e0.1 == k) = true
    · rw [if_pos hk] at heq
      rw [← heq]
      show e0.1 = v.id
      rw [hv]
      simpa using hk
    · rw [if_neg hk] at heq
      rw [← heq]
      exact hw.1 e0 he0
  · rw [keysOf_setEntry_of_present v hp]
    exact hw.2

theorem wfK_eraseEntry {t : Table} (hw : WfK t) (k : String) : WfK (eraseEntry t k) := by
  constructor
  · intro e he
    have hmem : e ∈ t := by
      unfold eraseEntry at he
      exact (List.mem_filter.mp he).1
    exact hw.1 e hmem
  · rw [keysOf_eraseEntry]
    exact List.Nodup.filter _ hw.2

theorem lookup_detachParent_cases (d : Table) (id : String) (node : Node) (k : String) :
    lookup (detachParent d id node) k = lookup d k ∨
    ∃ pn, node.parent = some k ∧ lookup d k = some pn ∧ pn.child = some id ∧
      lookup (detachParent d id node) k = some { pn with child := none } := by
  unfold detachParent
  cases hp : node.parent with
  | none => exact Or.inl rfl
  | some p =>
    simp only []
    by_cases hpe : (p == "") = true
    · rw [if_pos hpe]; exact Or.inl rfl
    · rw [if_neg hpe]
      cases hlp : lookup d p with
      | none => exact Or.inl rfl
      | some pn =>
        simp only []
        by_cases hc : (pn.child == some id) = true
        · rw [if_pos hc]
          by_cases hk : p = k
          · subst hk
            exact Or.inr ⟨pn, rfl, hlp, by simpa using hc,
              lookup_setEntry_self _ (by simp [hlp])⟩
          · exact Or.inl (lookup_setEntry_other _ (by simp [hlp]) hk)
        · rw [if_neg hc]; exact Or.inl rfl

theorem lookup_detachActiveChild_cases (d : Table) (id : String) (node : Node) (k : String) :
    lookup (detachActiveChild d id node) k = lookup d k ∨
    ∃ an, node.child = some k ∧ lookup d k = some an ∧ an.parent = some id ∧
      lookup (detachActiveChild d id node) k = some { an with parent := none } := by
  unfold detachActiveChild
  cases hp : node.child with
  | none => exact Or.inl rfl
  | some ac =>
    simp only []
    by_cases hpe : (ac == "") = true
    · rw [if_pos hpe]; exact Or.inl rfl
    · rw [if_neg hpe]
      cases hlp : lookup d ac with
      | none => exact Or.inl rfl
      | some an =>
        simp only []
        by_cases hc : (an.parent == some id) = true
        · rw [if_pos hc]
          by_cases hk : ac = k
          · subst hk
            exact Or.inr ⟨an, rfl, hlp, by simpa using hc,
              lookup_setEntry_self _ (by simp [hlp])⟩
          · exact Or.inl (lookup_setEntry_other _ (by simp [hlp]) hk)
        · rw [if_neg hc]; exact Or.inl rfl

/-- The sibling chosen by `deleteNode`'s first step: the first node in
table order with the same parent and a different id. -/
def sibOf (t : Table) (p exclId : String) : Option String :=
  ((tvalues t).find? (fun n => n.parent == some p && !(n.id == exclId))).map (fun m => m.id)

theorem lookup_siblingRedirect_cases (t : Table) (id : String) (node : Node) (k : String) :
    lookup (siblingRedirect t id node) k = lookup t k ∨
    ∃ pn, node.parent = some k ∧ lookup t k = some pn ∧ pn.child = some id ∧
      lookup (siblingRedirect t id node) k = some { pn with child := sibOf t k id } := by
  unfold siblingRedirect sibOf
  cases hp : node.parent with
  | none => exact Or.inl rfl
  | some p =>
    simp only []
    by_cases hpe : (p == "") = true
    · rw [if_pos hpe]; exact Or.inl rfl
    · rw [if_neg hpe]
      cases hlp : lookup t p with
      | none => exact Or.inl rfl
      | some pn =>
        simp only []
        by_cases hc : (pn.child == some id) = true
        · rw [if_pos hc]
          by_cases hk : p = k
          · subst hk
            exact Or.inr ⟨pn, rfl, hlp, by simpa using hc,
              lookup_setEntry_self _ (by simp [hlp])⟩
          · exact Or.inl (lookup_setEntry_other _ (by simp [hlp]) hk)
        · rw [if_neg hc]; exact Or.inl rfl

/-- The full postcondition of one (recursive) deletion call, relating the
output draft/visited pair to the input: keys/ids stay disciplined; newly
visited ids are exactly the deletions; they are reachable from the call's
roots; parents are only ever cleared, and only on visited nodes; children
are only cleared when they pointed at a visited node; payload fields never
change; and each visited node's children (in the input draft) are visited. -/
def DelPost (d0 : Table) (s0 : List String) (roots : List String)
    (d2 : Table) (s2 : List String) : Prop :=
  WfK d2 ∧ s0 ⊆ s2 ∧
  (∀ k, (lookup d0 k).isSome → lookup d2 k = none → k ∈ s2) ∧
  (∀ k, k ∈ s2 → k ∉ s0 → lookup d2 k = none) ∧
  (∀ x, x ∈ s2 → x ∈ s0 ∨ ∃ r ∈ roots, EdgeReach d0 r x) ∧
  (∀ k n n', lookup d0 k = some n → lookup d2 k = some n' →
      n'.parent = n.parent ∨ (n'.parent = none ∧ k ∈ s2)) ∧
  (∀ x, x ∈ s2 → x ∈ s0 ∨ (∀ y n, lookup d0 y = some n → n.parent = some x → y ∈ s2)) ∧
  (∀ k n', lookup d2 k = some n' → ∃ n, lookup d0 k = some n ∧
      n'.id = n.id ∧ n'.role = n.role ∧ n'.content = n.content ∧
      n'.metadata = n.metadata ∧ n'.root = n.root ∧
      (n'.parent = n.parent ∨ n'.parent = none) ∧
      (n'.child = n.child ∨ (n'.child = none ∧ ∃ cp, n.child = some cp ∧ cp ∈ s2)))

theorem delPost_refl (d : Table) (s roots : List String) (hw : WfK d) :
    DelPost d s roots d s := by
  refine ⟨hw, fun a ha => ha, ?_, ?_, ?_, ?_, ?_, ?_⟩
  · intro k h1 h2
    rw [h2] at h1
    simp at h1
  · intro k h1 h2
    exact absurd h1 h2
  · intro x hx
    exact Or.inl hx
  · intro k n n' h1 h2
    rw [h1] at h2
    exact Or.inl (congrArg Node.parent (Option.some.inj h2)).symm
  · intro x hx
    exact Or.inl hx
  · intro k n' h
    exact ⟨n', h, rfl, rfl, rfl, rfl, rfl, Or.inl rfl, Or.inl rfl⟩

theorem delPost_comp {d0 d1 d2 : Table} {s0 s1 s2 r1 r2 : List String}
    (h1 : DelPost d0 s0 r1 d1 s1) (h2 : DelPost d1 s1 r2 d2 s2) :
    DelPost d0 s0 (r1 ++ r2) d2 s2 := by
  obtain ⟨hw1, hs1, hA1, hB1, hC1, hD1, hE1, hF1⟩ := h1
  obtain ⟨hw2, hs2, hA2, hB2, hC2, hD2, hE2, hF2⟩ := h2
  have hmono : ∀ x n y, lookup d1 x = some n → n.parent = some y →
      ∃ m, lookup d0 x = some m ∧ m.parent = some y := by
    intro x n y hl hp
    obtain ⟨m, hm, -, -, -, -, -, hpar, -⟩ := hF1 x n hl
    rcases hpar with hpar | hpar
    · exact ⟨m, hm, by rw [← hpar, hp]⟩
    · rw [hpar] at hp; cases hp
  have hnone : ∀ k, lookup d1 k = none → lookup d2 k = none := by
    intro k h
    cases hl2 : lookup d2 k with
    | none => rfl
    | some n' =>
      obtain ⟨n, hn, -⟩ := hF2 k n' hl2
      rw [h] at hn
      cases hn
  refine ⟨hw2, fun a ha => hs2 (hs1 ha), ?_, ?_, ?_, ?_, ?_, ?_⟩
  · intro k hk h2k
    cases hl1 : lookup d1 k with
    | none => exact hs2 (hA1 k hk hl1)
    | some n1 => exact hA2 k (by simp [hl1]) h2k
  · intro k hk hk0
    by_cases hk1 : k ∈ s1
    · exact hnone k (hB1 k hk1 hk0)
    · exact hB2 k hk hk1
  · intro x hx
    by_cases hx1 : x ∈ s1
    · rcases hC1 x hx1 with h | ⟨r, hr, hre⟩
      · exact Or.inl h
      · exact Or.inr ⟨r, List.mem_append_left _ hr, hre⟩
    · rcases hC2 x hx with h | ⟨r, hr, hre⟩
      · exact absurd h hx1
      · exact Or.inr ⟨r, List.mem_append_right _ hr,
          edgeReach_mono hmono x hre⟩
  · intro k n n' h0 h2k
    obtain ⟨n1, hn1, -, -, -, -, -, -, -⟩ := hF2 k n' h2k
    rcases hD2 k n1 n' hn1 h2k with hpe | ⟨hpe, hks⟩
    · rcases hD1 k n n1 h0 hn1 with hpe1 | ⟨hpe1, hks1⟩
      · exact Or.inl (hpe.trans hpe1)
      · exact Or.inr ⟨hpe.trans hpe1, hs2 hks1⟩
    · exact Or.inr ⟨hpe, hks⟩
  · intro x hx
    by_cases hx1 : x ∈ s1
    · rcases hE1 x hx1 with h | hcov
      · exact Or.inl h
      · exact Or.inr fun y n hy hp => hs2 (hcov y n hy hp)
    · rcases hE2 x hx with h | hcov
      · exact absurd h hx1
      · refine Or.inr fun y n hy hp => ?_
        cases hl1 : lookup d1 y with
        | none => exact hs2 (hA1 y (by simp [hy]) hl1)
        | some n1 =>
          rcases hD1 y n n1 hy hl1 with hpe | ⟨hpe, hys⟩
          · exact hcov y n1 hl1 (by rw [hpe, hp])
          · exact hs2 hys
  · intro k n' h2k
    obtain ⟨n1, hn1, hid2, hrole2, hcont2, hmeta2, hroot2, hpar2, hch2⟩ := hF2 k n' h2k
    obtain ⟨n, hn, hid1, hrole1, hcont1, hmeta1, hroot1, hpar1, hch1⟩ := hF1 k n1 hn1
    refine ⟨n, hn, hid2.trans hid1, hrole2.trans hrole1, hcont2.trans hcont1,
      hmeta2.trans hmeta1, hroot2.trans hroot1, ?_, ?_⟩
    · rcases hpar2 with h | h
      · rcases hpar1 with h' | h'
        · exact Or.inl (h.trans h')
        · exact Or.inr (h.trans h')
      · exact Or.inr h
    · rcases hch2 with h | ⟨hnone2, cp, hcp, hcps⟩
      · rcases hch1 with h' | ⟨hnone1, cq, hcq, hcqs⟩
        · exact Or.inl (h.trans h')
        · exact Or.inr ⟨h.trans hnone1, cq, hcq, hs2 hcqs⟩
      · rcases hch1 with h' | ⟨hnone1, cq, hcq, hcqs⟩
        · exact Or.inr ⟨hnone2, cp, h'.symm.trans hcp, hcps⟩
        · rw [hnone1] at hcp; cases hcp

theorem wfK_detachParent {d : Table} (hw : WfK d) (id : String) (node : Node) :
    WfK (detachParent d id node) := by
  unfold detachParent
  cases hp : node.parent with
  | none => exact hw
  | some p =>
    simp only []
    by_cases hpe : (p == "") = true
    · rw [if_pos hpe]; exact hw
    · rw [if_neg hpe]
      cases hlp : lookup d p with
      | none => exact hw
      | some pn =>
        simp only []
        by_cases hc : (pn.child == some id) = true
        · rw [if_pos hc]
          have hid : pn.id = p := id_of_lookup_wfK hw hlp
          exact wfK_setEntry hw hid (by simp [hlp])
        · rw [if_neg hc]; exact hw

theorem wfK_detachActiveChild {d : Table} (hw : WfK d) (id : String) (node : Node) :
    WfK (detachActiveChild d id node) := by
  unfold detachActiveChild
  cases hp : node.child with
  | none => exact hw
  | some ac =>
    simp only []
    by_cases hpe : (ac == "") = true
    · rw [if_pos hpe]; exact hw
    · rw [if_neg hpe]
      cases hlp : lookup d ac with
      | none => exact hw
      | some an =>
        simp only []
        by_cases hc : (an.parent == some id) = true
        · rw [if_pos hc]
          have hid : an.id = ac := id_of_lookup_wfK hw hlp
          exact wfK_setEntry hw hid (by simp [hlp])
        · rw [if_neg hc]; exact hw

theorem wfK_siblingRedirect {t : Table} (hw : WfK t) (id : String) (node : Node) :
    WfK (siblingRedirect t id node) := by
  unfold siblingRedirect
  cases hp : node.parent with
  | none => exact hw
  | some p =>
    simp only []
    by_cases hpe : (p == "") = true
    · rw [if_pos hpe]; exact hw
    · rw [if_neg hpe]
      cases hlp : lookup t p with
      | none => exact hw
      | some pn =>
        simp only []
        by_cases hc : (pn.child == some id) = true
        · rw [if_pos hc]
          have hid : pn.id = p := id_of_lookup_wfK hw hlp
          exact wfK_setEntry hw hid (by simp [hlp])
        · rw [if_neg hc]; exact hw

theorem delPost_none_mono {d0 d2 : Table} {s0 s2 r : List String}
    (h : DelPost d0 s0 r d2 s2) {k : String} (hk : lookup d0 k = none) :
    lookup d2 k = none := by
  cases hl : lookup d2 k with
  | none => rfl
  | some n' =>
    obtain ⟨n, hn, -, -, -, -, -, -, -⟩ := h.2.2.2.2.2.2.2 k n' hl
    rw [hk] at hn
    cases hn

/-- The full invariant of the recursive deletion: a successful `delF` call
satisfies `DelPost` with its single id as root (and visits that id when it
was present and unvisited); a successful `delsF` call satisfies `DelPost`
with the child list as roots, and every listed id ends up visited or
absent. -/
theorem del_invariant (fuel : Nat) :
    (∀ draft seen c d2 s2, WfK draft → delF fuel draft seen c = some (d2, s2) →
      DelPost draft seen [c] d2 s2 ∧
        ((lookup draft c).isSome → c ∉ seen → c ∈ s2)) ∧
    (∀ cs draft seen d2 s2, WfK draft → delsF fuel draft seen cs = some (d2, s2) →
      DelPost draft seen cs d2 s2 ∧ ∀ c ∈ cs, c ∈ s2 ∨ lookup d2 c = none) := by
  induction fuel with
  | zero =>
    constructor
    · intro draft seen c d2 s2 hw h
      simp [delF] at h
    · intro cs draft seen d2 s2 hw h
      cases cs with
      | nil =>
        unfold delsF at h
        obtain ⟨rfl, rfl⟩ : draft = d2 ∧ seen = s2 := by
          constructor <;> [exact congrArg Prod.fst (Option.some.inj h);
            exact congrArg Prod.snd (Option.some.inj h)]
        exact ⟨delPost_refl _ _ _ hw, by simp⟩
      | cons c cs' =>
        unfold delsF at h
        simp [delF] at h
  | succ fuel ih =>
    have hdel : ∀ draft seen c d2 s2, WfK draft → delF (fuel + 1) draft seen c =
        some (d2, s2) → DelPost draft seen [c] d2 s2 ∧
        ((lookup draft c).isSome → c ∉ seen → c ∈ s2) := by
      intro draft seen c d2 s2 hw h
      unfold delF at h
      cases hl : lookup draft c with
      | none =>
        rw [hl] at h
        obtain ⟨rfl, rfl⟩ : draft = d2 ∧ seen = s2 := by
          constructor <;> [exact congrArg Prod.fst (Option.some.inj h);
            exact congrArg Prod.snd (Option.some.inj h)]
        exact ⟨delPost_refl _ _ _ hw, fun hsome hns => by simp [hl] at hsome⟩
      | some node0 =>
        simp only [hl] at h
        by_cases hs : c ∈ seen
        · rw [if_pos hs] at h
          obtain ⟨rfl, rfl⟩ : draft = d2 ∧ seen = s2 := by
            constructor <;> [exact congrArg Prod.fst (Option.some.inj h);
              exact congrArg Prod.snd (Option.some.inj h)]
          exact ⟨delPost_refl _ _ _ hw, fun _ hns => absurd hs hns⟩
        · rw [if_neg hs] at h
          cases hds : delsF fuel draft (c :: seen) ((getChildren draft c).map (·.id)) with
          | none => rw [hds] at h; cases h
          | some pair =>
            obtain ⟨da, sa⟩ := pair
            rw [hds] at h
            obtain ⟨rfl, rfl⟩ : eraseEntry (detachActiveChild (detachParent da c node0)
                c node0) c = d2 ∧ sa = s2 := by
              constructor <;> [exact congrArg Prod.fst (Option.some.inj h);
                exact congrArg Prod.snd (Option.some.inj h)]
            obtain ⟨DP1, hcall⟩ :=
              ih.2 ((getChildren draft c).map (·.id)) draft (c :: seen) da sa hw hds
            obtain ⟨hwa, hsa, hA, hB, hC, hD, hE, hF⟩ := DP1
            have hclsa : c ∈ sa := hsa (List.mem_cons_self c seen)
            have hseensa : seen ⊆ sa := fun a ha => hsa (List.mem_cons_of_mem _ ha)
            have hwd2 : WfK (eraseEntry (detachActiveChild (detachParent da c node0)
                c node0) c) :=
              wfK_eraseEntry (wfK_detachActiveChild (wfK_detachParent hwa c node0)
                c node0) c
            have hDAk := fun k =>
              lookup_detachActiveChild_cases (detachParent da c node0) c node0 k
            have hDPk := fun k => lookup_detachParent_cases da c node0 k
            refine ⟨⟨hwd2, hseensa, ?_, ?_, ?_, ?_, ?_, ?_⟩, fun _ _ => hclsa⟩
            · -- deleted keys were visited
              intro k hk hnone
              by_cases hkc : k = c
              · subst hkc; exact hclsa
              · rw [lookup_eraseEntry, if_neg hkc] at hnone
                rcases hDAk k with hda | ⟨an, -, hsomeA, -, heqA⟩
                · rw [hda] at hnone
                  rcases hDPk k with hdp | ⟨pn, -, hsome2, -, heqP⟩
                  · rw [hdp] at hnone
                    exact hA k hk hnone
                  · rw [heqP] at hnone; cases hnone
                · rw [heqA] at hnone; cases hnone
            · -- new visits are deleted
              intro k hk hkseen
              by_cases hkc : k = c
              · subst hkc; rw [lookup_eraseEntry, if_pos rfl]
              · rw [lookup_eraseEntry, if_neg hkc]
                have hknone : lookup da k = none := hB k hk (by simp [hkc, hkseen])
                rcases hDPk k with hdp | ⟨pn, -, hsome2, -, -⟩
                · rcases hDAk k with hda | ⟨an, -, hsomeA, -, -⟩
                  · rw [hda, hdp]; exact hknone
                  · rw [hdp, hknone] at hsomeA; cases hsomeA
                · rw [hknone] at hsome2; cases hsome2
            · -- visits reachable from the root id
              intro x hx
              rcases hC x hx with hxc | ⟨r, hr, hre⟩
              · rcases List.mem_cons.mp hxc with rfl | hxs
                · exact Or.inr ⟨x, by simp, EdgeReach.refl⟩
                · exact Or.inl hxs
              · obtain ⟨nr, hnr, hnrp⟩ := childId_lookup hw hr
                exact Or.inr ⟨c, by simp,
                  edgeReach_trans (EdgeReach.step EdgeReach.refl hnr hnrp) hre⟩
            · -- parents only cleared, and only on visited nodes
              intro k n n' hdraft hd2
              by_cases hkc : k = c
              · subst hkc; rw [lookup_eraseEntry, if_pos rfl] at hd2; cases hd2
              · rw [lookup_eraseEntry, if_neg hkc] at hd2
                rcases hDAk k with hda | ⟨an, hch0, hsomeA, hanp, heqA⟩
                · rw [hda] at hd2
                  rcases hDPk k with hdp | ⟨pn, hp0, hlda, hpc, heqP⟩
                  · rw [hdp] at hd2
                    exact hD k n n' hdraft hd2
                  · rw [heqP] at hd2
                    obtain rfl : { pn with child := none } = n' := Option.some.inj hd2
                    rcases hD k n pn hdraft hlda with hpe | ⟨hpe, hks⟩
                    · exact Or.inl hpe
                    · exact Or.inr ⟨hpe, hks⟩
                · rw [heqA] at hd2
                  obtain rfl : { an with parent := none } = n' := Option.some.inj hd2
                  refine Or.inr ⟨rfl, ?_⟩
                  rcases hDPk k with hdp | ⟨pn, hp0, hlda, hpc, heqP⟩
                  · rw [hdp] at hsomeA
                    rcases hD k n an hdraft hsomeA with hpe | ⟨hpe, hks⟩
                    · have hnp : n.parent = some c := by rw [← hpe, hanp]
                      have hkcs := mem_childIds hw hdraft hnp
                      rcases hcall k hkcs with hks | hnone
                      · exact hks
                      · rw [hnone] at hsomeA; cases hsomeA
                    · rw [hpe] at hanp; cases hanp
                  · rw [heqP] at hsomeA
                    obtain rfl : { pn with child := none } = an := Option.some.inj hsomeA
                    have hpnp : pn.parent = some c := hanp
                    rcases hD k n pn hdraft hlda with hpe | ⟨hpe, hks⟩
                    · have hnp : n.parent = some c := by rw [← hpe, hpnp]
                      have hkcs := mem_childIds hw hdraft hnp
                      rcases hcall k hkcs with hks | hnone
                      · exact hks
                      · rw [hnone] at hlda; cases hlda
                    · rw [hpe] at hpnp; cases hpnp
            · -- every visited node's children are visited
              intro x hx
              by_cases hxseen : x ∈ seen
              · exact Or.inl hxseen
              · by_cases hxc : x = c
                · subst hxc
                  refine Or.inr fun y n hy hp => ?_
                  have hycs := mem_childIds hw hy hp
                  rcases hcall y hycs with hys | hnone
                  · exact hys
                  · exact hA y (by simp [hy]) hnone
                · rcases hE x hx with hxcs | hcov
                  · rcases List.mem_cons.mp hxcs with h' | h'
                    · exact absurd h' hxc
                    · exact absurd h' hxseen
                  · exact Or.inr hcov
            · -- survivors keep payload; links only cleared toward visits
              intro k n' hd2
              by_cases hkc : k = c
              · subst hkc; rw [lookup_eraseEntry, if_pos rfl] at hd2; cases hd2
              · rw [lookup_eraseEntry, if_neg hkc] at hd2
                rcases hDAk k with hda | ⟨an, hch0, hsomeA, hanp, heqA⟩
                · rw [hda] at hd2
                  rcases hDPk k with hdp | ⟨pn, hp0, hlda, hpc, heqP⟩
                  · rw [hdp] at hd2
                    exact hF k n' hd2
                  · rw [heqP] at hd2
                    obtain rfl : { pn with child := none } = n' := Option.some.inj hd2
                    obtain ⟨n, hn, hid, hrole, hcont, hmeta, hroot, hpar, hch⟩ :=
                      hF k pn hlda
                    refine ⟨n, hn, hid, hrole, hcont, hmeta, hroot, hpar, ?_⟩
                    rcases hch with h' | ⟨hno, -, -, -⟩
                    · exact Or.inr ⟨rfl, c, by rw [← h', hpc], hclsa⟩
                    · rw [hno] at hpc; cases hpc
                · rw [heqA] at hd2
                  obtain rfl : { an with parent := none } = n' := Option.some.inj hd2
                  rcases hDPk k with hdp | ⟨pn, hp0, hlda, hpc, heqP⟩
                  · rw [hdp] at hsomeA
                    obtain ⟨n, hn, hid, hrole, hcont, hmeta, hroot, hpar, hch⟩ :=
                      hF k an hsomeA
                    exact ⟨n, hn, hid, hrole, hcont, hmeta, hroot, Or.inr rfl, hch⟩
                  · rw [heqP] at hsomeA
                    obtain rfl : { pn with child := none } = an := Option.some.inj hsomeA
                    obtain ⟨n, hn, hid, hrole, hcont, hmeta, hroot, hpar, hch⟩ :=
                      hF k pn hlda
                    refine ⟨n, hn, hid, hrole, hcont, hmeta, hroot, Or.inr rfl, ?_⟩
                    rcases hch with h' | ⟨hno, -, -, -⟩
                    · exact Or.inr ⟨rfl, c, by rw [← h', hpc], hclsa⟩
                    · rw [hno] at hpc; cases hpc
    refine ⟨hdel, ?_⟩
    intro cs
    induction cs with
    | nil =>
      intro draft seen d2 s2 hw h
      unfold delsF at h
      obtain ⟨rfl, rfl⟩ : draft = d2 ∧ seen = s2 := by
        constructor <;> [exact congrArg Prod.fst (Option.some.inj h);
          exact congrArg Prod.snd (Option.some.inj h)]
      exact ⟨delPost_refl _ _ _ hw, by simp⟩
    | cons c cs' ihcs =>
      intro draft seen d2 s2 hw h
      unfold delsF at h
      cases hdf : delF (fuel + 1) draft seen c with
      | none => rw [hdf] at h; cases h
      | some pair =>
        obtain ⟨da, sa⟩ := pair
        rw [hdf] at h
        obtain ⟨DPa, hP10⟩ := hdel draft seen c da sa hw hdf
        obtain ⟨DPb, hcsb⟩ := ihcs da sa d2 s2 DPa.1 h
        refine ⟨delPost_comp DPa DPb, ?_⟩
        intro x hx
        rcases List.mem_cons.mp hx with rfl | hx'
        · by_cases hlc : (lookup draft x).isSome
          · by_cases hxs : x ∈ seen
            · exact Or.inl (DPb.2.1 (DPa.2.1 hxs))
            · exact Or.inl (DPb.2.1 (hP10 hlc hxs))
          · refine Or.inr ?_
            have h0 : lookup draft x = none := by
              cases hl0 : lookup draft x with
              | none => rfl
              | some nn => rw [hl0] at hlc; simp at hlc
            exact delPost_none_mono DPb (delPost_none_mono DPa h0)
        · exact hcsb x hx'

theorem edgeReach_siblingRedirect_iff (t : Table) (id : String) (node : Node)
    (rid k : String) :
    EdgeReach (siblingRedirect t id node) rid k ↔ EdgeReach t rid k := by
  constructor
  · apply edgeReach_mono
    intro x n y hl hp
    rcases lookup_siblingRedirect_cases t id node x with hcase | ⟨pn, -, hlt, -, heq⟩
    · exact ⟨n, by rw [← hcase]; exact hl, hp⟩
    · rw [heq] at hl
      obtain rfl : { pn with child := sibOf t x id } = n := Option.some.inj hl
      exact ⟨pn, hlt, hp⟩
  · apply edgeReach_mono
    intro x n y hl hp
    rcases lookup_siblingRedirect_cases t id node x with hcase | ⟨pn, -, hlt, -, heq⟩
    · exact ⟨n, by rw [hcase]; exact hl, hp⟩
    · rw [hlt] at hl
      have h2 : pn = n := Option.some.inj hl
      subst h2
      exact ⟨{ pn with child := sibOf t x id }, heq, hp⟩

theorem edgeReach_only_of_no_child {t : Table} {id : String}
    (h : ∀ x n, (x, n) ∈ t → n.parent ≠ some id) :
    ∀ k, EdgeReach t id k → k = id := by
  intro k hk
  induction hk with
  | refl => rfl
  | step hy hl hp ih =>
    exact ((h _ _ (lookup_mem hl)) (ih ▸ hp)).elim

/-- Running `deleteNode` on a present id: the result is the output of a
successful internal deletion satisfying the full invariant against the
sibling-redirected table, and the visited set is exactly the claim's
parent→children reachable set of the original table. -/
theorem deleteNode_run {t : Table} {id : String} {node : Node}
    (hwf : WellFormed t) (hid : lookup t id = some node) :
    ∃ d s, deleteNode t id = d ∧ DelPost (siblingRedirect t id node) [] [id] d s ∧
      (∀ x, x ∈ s ↔ EdgeReach t id x) := by
  have hw : WfK t := wfK_of_wf hwf
  have hw1 : WfK (siblingRedirect t id node) := wfK_siblingRedirect hw id node
  obtain ⟨pr, hpr⟩ := Option.isSome_iff_exists.mp (deleteNode_internal_isSome t id node hid)
  obtain ⟨d, s⟩ := pr
  have hdel : deleteNode t id = d := by
    unfold deleteNode
    rw [hid]
    simp only []
    rw [hpr]
  obtain ⟨DP, hP10⟩ :=
    (del_invariant (t.length + 2)).1 (siblingRedirect t id node) [] id d s hw1 hpr
  refine ⟨d, s, hdel, DP, ?_⟩
  obtain ⟨hwd, -, hA, hB, hC, hD, hE, hF⟩ := DP
  have hidp : (lookup (siblingRedirect t id node) id).isSome := by
    rw [lookup_isSome_iff, keysOf_siblingRedirect, ← lookup_isSome_iff]
    simp [hid]
  have hids : id ∈ s := hP10 hidp (by simp)
  have hRiff := edgeReach_siblingRedirect_iff t id node id
  intro x
  constructor
  · intro hx
    rcases hC x hx with h0 | ⟨r, hr, hre⟩
    · simp at h0
    · obtain rfl : r = id := by simpa using hr
      exact (hRiff x).mp hre
  · intro hx
    rw [← hRiff x] at hx
    induction hx with
    | refl => exact hids
    | step hy hl hp ihy =>
      rcases hE _ ihy with h0 | hcov
      · simp at h0
      · exact hcov _ _ hl hp

/-- C3: subtree completeness of `deleteNode`. For every well-formed table
and present id, a key is absent from the result exactly when it was absent
before or lies in the parent→children reachable set of the deleted id
(so `id` and its entire subtree are removed, and nothing else); and every
node outside that reachable set is still present with its id, role,
content, metadata, root and parent pointer unchanged — its active-child
pointer changes only if it previously pointed at a node of the deleted
set. -/
theorem deleteNode_subtree_spec {t : Table} {id : String} {node : Node}
    (hwf : WellFormed t) (hid : lookup t id = some node) :
    (∀ k, lookup (deleteNode t id) k = none ↔
      (lookup t k = none ∨ EdgeReach t id k)) ∧
    (∀ k n, lookup t k = some n → ¬ EdgeReach t id k →
      ∃ n', lookup (deleteNode t id) k = some n' ∧ n'.id = n.id ∧ n'.role = n.role ∧
        n'.content = n.content ∧ n'.metadata = n.metadata ∧ n'.root = n.root ∧
        n'.parent = n.parent ∧
        (n'.child = n.child ∨ ∃ cp, n.child = some cp ∧ EdgeReach t id cp)) := by
  obtain ⟨d, s, hdel, DP, hsiff⟩ := deleteNode_run hwf hid
  have hnm : ∀ k, lookup (siblingRedirect t id node) k = none → lookup d k = none :=
    fun k hk => delPost_none_mono DP hk
  obtain ⟨hwd, -, hA, hB, hC, hD, hE, hF⟩ := DP
  have hps : ∀ k, (lookup (siblingRedirect t id node) k).isSome ↔ (lookup t k).isSome := by
    intro k
    rw [lookup_isSome_iff, lookup_isSome_iff, keysOf_siblingRedirect]
  have hns : ∀ k, lookup t k = none → lookup (siblingRedirect t id node) k = none := by
    intro k hk
    cases hl1 : lookup (siblingRedirect t id node) k with
    | none => rfl
    | some m =>
      have h2 := (hps k).mp (by simp [hl1])
      rw [hk] at h2
      simp at h2
  constructor
  · intro k
    rw [hdel]
    constructor
    · intro hnone
      cases hlt : lookup t k with
      | none => exact Or.inl rfl
      | some n => exact Or.inr ((hsiff k).mp (hA k ((hps k).mpr (by simp [hlt])) hnone))
    · rintro (hnone | hreach)
      · exact hnm k (hns k hnone)
      · exact hB k ((hsiff k).mpr hreach) (by simp)
  · intro k n hlt hnr
    rw [hdel]
    have hks : k ∉ s := fun hk => hnr ((hsiff k).mp hk)
    rcases lookup_siblingRedirect_cases t id node k with hcase | ⟨pn, hp0, hlt2, hpc, heq⟩
    · have hl1 : lookup (siblingRedirect t id node) k = some n := by
        rw [hcase]; exact hlt
      cases hld : lookup d k with
      | none => exact absurd (hA k (by simp [hl1]) hld) hks
      | some n' =>
        obtain ⟨m, hm, hid2, hrole2, hcont2, hmeta2, hroot2, hpar2, hch2⟩ := hF k n' hld
        rw [hl1] at hm
        obtain rfl : n = m := Option.some.inj hm
        refine ⟨n', rfl, hid2, hrole2, hcont2, hmeta2, hroot2, ?_, ?_⟩
        · rcases hD k n n' hl1 hld with hsame | ⟨-, hks2⟩
          · exact hsame
          · exact absurd hks2 hks
        · rcases hch2 with h' | ⟨-, cp, hcp, hcps⟩
          · exact Or.inl h'
          · exact Or.inr ⟨cp, hcp, (hsiff cp).mp hcps⟩
    · rw [hlt] at hlt2
      have h2 : n = pn := Option.some.inj hlt2
      subst h2
      cases hld : lookup d k with
      | none => exact absurd (hA k (by simp [heq]) hld) hks
      | some n' =>
        obtain ⟨m, hm, hid2, hrole2, hcont2, hmeta2, hroot2, hpar2, hch2⟩ := hF k n' hld
        rw [heq] at hm
        obtain rfl : { n with child := sibOf t k id } = m := Option.some.inj hm
        refine ⟨n', rfl, hid2, hrole2, hcont2, hmeta2, hroot2, ?_, ?_⟩
        · rcases hD k _ n' heq hld with hsame | ⟨-, hks2⟩
          · exact hsame
          · exact absurd hks2 hks
        · exact Or.inr ⟨id, hpc, EdgeReach.refl⟩

/-- C3 witness: deleting `b` from the spec's linear example table also
removes its descendant `c`. -/
theorem deleteNode_subtree_spec_witness :
    lookup (deleteNode exLinearTable "b") "c" = none := by
  have h := (@deleteNode_subtree_spec exLinearTable "b" (exNode "b" (some "a") (some "c"))
    (by decide) (by decide)).1 "c"
  exact h.mpr (Or.inr (@EdgeReach.step exLinearTable "b" "b" "c"
    (exNode "c" (some "b") none) EdgeReach.refl (by decide) (by decide)))

/-- C7: what actually happens to the deleted node's former parent. For
every well-formed table, when the parent survives the deletion and its
active-child pointer pointed at the deleted id, the pointer is NOT simply
cleared: it is redirected to the first other node in table order with the
same parent (`sibOf`), and ends up absent only when that sibling itself
lies in the deleted subtree (or when no such sibling exists, in which case
`sibOf` is `none`). -/
theorem deleteNode_parent_redirect {t : Table} {id p : String} {node pn : Node}
    (hwf : WellFormed t) (hid : lookup t id = some node)
    (hp : node.parent = some p) (hpn : lookup t p = some pn)
    (hpc : pn.child = some id) (hpr : ¬ EdgeReach t id p) :
    ∃ pn', lookup (deleteNode t id) p = some pn' ∧
      (pn'.child = sibOf t p id ∨
       (pn'.child = none ∧ ∃ sib, sibOf t p id = some sib ∧ EdgeReach t id sib)) := by
  have hp_ne : p ≠ "" := by
    intro hcon
    exact (hwf.2.2 _ (lookup_mem hid)).1 (hcon ▸ hp)
  have heq : lookup (siblingRedirect t id node) p = some { pn with child := sibOf t p id } := by
    unfold siblingRedirect sibOf
    rw [hp]
    simp only []
    rw [if_neg (by simpa using hp_ne), hpn]
    simp only []
    rw [if_pos (by simpa using hpc)]
    exact lookup_setEntry_self _ (by simp [hpn])
  obtain ⟨d, s, hdel, DP, hsiff⟩ := deleteNode_run hwf hid
  obtain ⟨hwd, -, hA, hB, hC, hD, hE, hF⟩ := DP
  have hks : p ∉ s := fun hk => hpr ((hsiff p).mp hk)
  rw [hdel]
  cases hld : lookup d p with
  | none => exact absurd (hA p (by simp [heq]) hld) hks
  | some n' =>
    obtain ⟨m, hm, -, -, -, -, -, -, hch2⟩ := hF p n' hld
    rw [heq] at hm
    obtain rfl : { pn with child := sibOf t p id } = m := Option.some.inj hm
    refine ⟨n', rfl, ?_⟩
    rcases hch2 with h' | ⟨hno, cp, hcp, hcps⟩
    · exact Or.inl h'
    · exact Or.inr ⟨hno, cp, hcp, (hsiff cp).mp hcps⟩

/-- C7 witness: deleting child `x` of `r` (children `[x, y]` in table
order, active child `x`) leaves `r` present with its active-child pointer
redirected to the sibling found by `sibOf` (namely `y`). -/
theorem deleteNode_parent_redirect_witness :
    ∃ pn', lookup (deleteNode exBranchTable "x") "r" = some pn' ∧
      (pn'.child = sibOf exBranchTable "r" "x" ∨
       (pn'.child = none ∧ ∃ sib, sibOf exBranchTable "r" "x" = some sib ∧
         EdgeReach exBranchTable "x" sib)) := by
  have hno : ∀ y n, (y, n) ∈ exBranchTable → n.parent ≠ some "x" := by
    intro y n hm
    simp [exBranchTable] at hm
    rcases hm with ⟨rfl, rfl⟩ | ⟨rfl, rfl⟩ | ⟨rfl, rfl⟩ <;> decide
  have hnr : ¬ EdgeReach exBranchTable "x" "r" := by
    intro hr
    exact absurd (edgeReach_only_of_no_child hno "r" hr) (by decide)
  exact @deleteNode_parent_redirect exBranchTable "x" "r"
    { id := "x", role := "user", content := "x", root := "r", parent := some "r" }
    { id := "r", role := "user", content := "r", root := "r", child := some "x" }
    (by decide) (by decide) (by decide) (by decide) (by decide) hnr

/-- The child loop of `_deleteNodeInternal`, abstracted over the recursive
call so the whole recursion can be phrased structurally. -/
def delsRun (f : Table → List String → String → Option (Table × List String)) :
    Table → List String → List String → Option (Table × List String)
  | draft, seen, [] => some (draft, seen)
  | draft, seen, c :: cs' =>
    match f draft seen c with
    | none => none
    | some (d1, s1) => delsRun f d1 s1 cs'

/-- A structurally recursive twin of `delF`, identical step for step; it
reduces inside the kernel, so concrete runs can be settled by `decide`. -/
def delFs : Nat → Table → List String → String → Option (Table × List String)
  | 0, _, _, _ => none
  | fuel+1, draft, seen, id =>
    match lookup draft id with
    | none => some (draft, seen)
    | some node =>
      if id ∈ seen then some (draft, seen)
      else
        match delsRun (delFs fuel) draft (id :: seen) ((getChildren draft id).map (·.id)) with
        | none => none
        | some (d1, s1) =>
          some (eraseEntry (detachActiveChild (detachParent d1 id node) id node) id, s1)

theorem delF_eq_delFs (fuel : Nat) :
    (∀ draft seen id, delF fuel draft seen id = delFs fuel draft seen id) ∧
    (∀ cs draft seen, delsF fuel draft seen cs = delsRun (delFs fuel) draft seen cs) := by
  induction fuel with
  | zero =>
    constructor
    · intro draft seen id
      simp [delF, delFs]
    · intro cs draft seen
      cases cs with
      | nil => simp [delsF, delsRun]
      | cons c cs' => simp [delsF, delsRun, delF, delFs]
  | succ fuel ih =>
    have hf : ∀ draft seen id, delF (fuel + 1) draft seen id =
        delFs (fuel + 1) draft seen id := by
      intro draft seen id
      unfold delF delFs
      cases hl : lookup draft id with
      | none => simp only [hl]
      | some node =>
        simp only [hl]
        by_cases hs : id ∈ seen
        · rw [if_pos hs, if_pos hs]
        · rw [if_neg hs, if_neg hs, ih.2]
    refine ⟨hf, ?_⟩
    intro cs
    induction cs with
    | nil =>
      intro draft seen
      simp [delsF, delsRun]
    | cons c cs' ihcs =>
      intro draft seen
      unfold delsF delsRun
      rw [hf]
      cases hd : delFs (fuel + 1) draft seen c with
      | none => simp only [hd]
      | some pair =>
        obtain ⟨d1, s1⟩ := pair
        simp only [hd]
        exact ihcs d1 s1

/-- `deleteNode` in terms of the kernel-reducible recursion. -/
theorem deleteNode_exec (t : Table) (id : String) :
    deleteNode t id =
      match lookup t id with
      | none => t
      | some node =>
        match delFs (t.length + 2) (siblingRedirect t id node) [] id with
        | some (d, _) => d
        | none => t := by
  unfold deleteNode
  cases hl : lookup t id with
  | none => simp only [hl]
  | some node =>
    simp only [hl]
    rw [(delF_eq_delFs (t.length + 2)).1]

/-- C7 counterexample to the claim as stated: in the two-children table
(`r` with children `x`, `y` in table order, active child `x`), deleting
`x` does not clear `r`'s active-child pointer even though it pointed into
the deleted subtree — the pointer is redirected to the surviving sibling
`y` instead. -/
theorem deleteNode_sibling_not_cleared :
    (lookup exBranchTable "r").map (fun n => n.child) = some (some "x") ∧
    lookup (deleteNode exBranchTable "x") "x" = none ∧
    (lookup (deleteNode exBranchTable "x") "r").map (fun n => n.child) =
      some (some "y") := by
  rw [deleteNode_exec]
  decide

